import Mathlib

/-!
Verification development for the ptroute layout-and-render engine.

The source is a Rust workspace; the parts relevant here are
`crates/ptroute-graph/src/layout.rs` (deterministic graph layout),
`crates/ptroute-render/src/{math,geometry,bvh,camera,integrator}.rs`
(sphere path tracer with a BVH acceleration structure).

Modelling conventions:
* `f32`/`f64` arithmetic is embedded as exact rational (`ℚ`) arithmetic;
  rounding is abstracted away.  `sqrt` is modelled by `sqrtQ`, a computable
  rational under-approximation of the real square root (exact on squares of
  decimal rationals); the only facts any proof uses about it are
  `0 ≤ sqrtQ q` and `sqrtQ q * sqrtQ q ≤ q`, both of which also hold for the
  rounded `f32` square root used by the source.  Transcendental constants
  (`tan` of the fixed field of view, natural `log` of integer counts) are
  modelled by fixed computable rational approximations; no claim below
  depends on their values.
* Rust machine integers (`u32`, `u64`) are embedded as `ℕ` with explicit
  reduction `% 2^32` / `% 2^64` where wrapping matters.
* String ids are embedded as their UTF-8 byte sequences (`List ℕ`);
  Rust `str` ordering is exactly byte-lexicographic order.
* Bounded loops are embedded structurally; `while`-style loops are embedded
  with an explicit fuel argument that provably dominates the number of
  iterations, so that every definition is executable.
* The special case of `f32` infinities/NaN matters for exactly one claim
  (the empty-scene camera); for that claim a small IEEE-style scalar type
  `FP` with `nan`/`±inf` is used instead of `ℚ`.
-/

set_option maxRecDepth 8000
set_option maxHeartbeats 1000000

namespace PT

/-! ## Rational square root under-approximation (models `f32::sqrt`) -/

/-- Fuelled integer square root (round down); structural so the kernel can
evaluate it.  `sqrtAux f n` is exact whenever `n < 4 ^ f`. -/
def sqrtAux : Nat → Nat → Nat
  | 0, _ => 0
  | f+1, n => if n = 0 then 0 else
      let r := 2 * sqrtAux f (n / 4)
      if (r+1)*(r+1) ≤ n then r+1 else r

/-- Integer square root lower bound; 128 fuel is exact up to `4 ^ 128`. -/
def natSqrtLB (n : Nat) : Nat := sqrtAux 128 n

/-- Fixed-point scale used by the rational square-root model. -/
def sqrtScale : Nat := 10^6

/-- Rational model of `f32::sqrt`: a lower approximation with six decimal
digits, exact on squares of decimal rationals.  Negative input yields `0`
(the source only ever takes square roots of non-negative values on the
paths the claims concern). -/
def sqrtQ (q : ℚ) : ℚ :=
  if q ≤ 0 then 0 else
    (natSqrtLB ⌊q * (sqrtScale : ℚ)^2⌋₊ : ℚ) / (sqrtScale : ℚ)

theorem sqrtAux_sq_le (f n : Nat) : sqrtAux f n * sqrtAux f n ≤ n := by
  induction f generalizing n with
  | zero => simp [sqrtAux]
  | succ f ih =>
    simp only [sqrtAux]
    split
    · simp
    · set r := 2 * sqrtAux f (n / 4) with hr
      have h4 : sqrtAux f (n / 4) * sqrtAux f (n / 4) ≤ n / 4 := ih (n / 4)
      split
      · omega
      · have h3 : r * r ≤ 4 * (n / 4) := by rw [hr]; nlinarith
        have h2 : 4 * (n / 4) ≤ n := by omega
        omega

theorem sqrtQ_nonneg (q : ℚ) : 0 ≤ sqrtQ q := by
  unfold sqrtQ
  split
  · simp
  · positivity

theorem sqrtQ_sq_le (q : ℚ) (hq : 0 ≤ q) : sqrtQ q * sqrtQ q ≤ q := by
  unfold sqrtQ
  split
  · simpa using hq
  · rename_i h
    push_neg at h
    have hk : (0:ℚ) < (sqrtScale : ℚ) := by norm_num [sqrtScale]
    set m := ⌊q * (sqrtScale : ℚ)^2⌋₊ with hm
    have h1 : (natSqrtLB m : ℚ) * (natSqrtLB m : ℚ) ≤ (m : ℚ) := by
      exact_mod_cast sqrtAux_sq_le 128 m
    have h2 : (m : ℚ) ≤ q * (sqrtScale : ℚ)^2 := by
      apply Nat.floor_le; positivity
    rw [div_mul_div_comm, div_le_iff₀ (by positivity)]
    calc (natSqrtLB m : ℚ) * (natSqrtLB m : ℚ) ≤ (m:ℚ) := h1
      _ ≤ q * (sqrtScale : ℚ)^2 := h2
      _ = q * ((sqrtScale:ℚ) * (sqrtScale:ℚ)) := by ring

/-- Concrete `sqrtQ` values: the integer square root is evaluated by the
kernel (`rfl`), the rational shell by `norm_num`. -/
theorem sqrtQ_eval (q : ℚ) (N M : Nat) (hq : 0 < q)
    (hfloor : ⌊q * (sqrtScale : ℚ) ^ 2⌋₊ = N) (hsqrt : natSqrtLB N = M) :
    sqrtQ q = (M : ℚ) / (sqrtScale : ℚ) := by
  unfold sqrtQ
  rw [if_neg (by linarith), hfloor, hsqrt]

theorem sqrtQ_one : sqrtQ 1 = 1 := by
  rw [sqrtQ_eval 1 1000000000000 1000000 one_pos
    (by rw [Nat.floor_eq_iff (by norm_num [sqrtScale])] ; norm_num [sqrtScale]) rfl]
  norm_num [sqrtScale]

theorem sqrtQ_q81 : sqrtQ (81 / 10000) = 9 / 100 := by
  rw [sqrtQ_eval (81 / 10000) 8100000000 90000 (by norm_num)
    (by rw [Nat.floor_eq_iff (by norm_num [sqrtScale])] ; norm_num [sqrtScale]) rfl]
  norm_num [sqrtScale]

theorem sqrtQ_b325 : sqrtQ (13 / 40) = 570087 / 1000000 := by
  rw [sqrtQ_eval (13 / 40) 325000000000 570087 (by norm_num)
    (by rw [Nat.floor_eq_iff (by norm_num [sqrtScale])] ; norm_num [sqrtScale]) rfl]
  norm_num [sqrtScale]

theorem sqrtQ_b425 : sqrtQ (17 / 40) = 651920 / 1000000 := by
  rw [sqrtQ_eval (17 / 40) 425000000000 651920 (by norm_num)
    (by rw [Nat.floor_eq_iff (by norm_num [sqrtScale])] ; norm_num [sqrtScale]) rfl]
  norm_num [sqrtScale]

theorem sqrtQ_b535 : sqrtQ (107 / 200) = 731436 / 1000000 := by
  rw [sqrtQ_eval (107 / 200) 535000000000 731436 (by norm_num)
    (by rw [Nat.floor_eq_iff (by norm_num [sqrtScale])] ; norm_num [sqrtScale]) rfl]
  norm_num [sqrtScale]

/-! ## Byte-sequence ids and stable sorting

Rust `String`/`&str` ids are modelled as their UTF-8 byte sequences; Rust
`str` comparison is byte-lexicographic, which is `bytesLt`/`bytesLe` below.
Rust's stable `sort`/`sort_by` is modelled by a stable insertion sort
(`sSort`); a stable sort's output is uniquely determined by the comparator,
so this agrees with Rust's stable merge sort. -/

def bytesLt : List Nat → List Nat → Bool
  | [], [] => false
  | [], _ :: _ => true
  | _ :: _, [] => false
  | a :: as_, b :: bs => if a < b then true else if b < a then false else bytesLt as_ bs

def bytesLe (a b : List Nat) : Bool := !(bytesLt b a)

/-- Stable insertion of `x` into `l`: `x` goes before the first element `y`
with `le x y`, i.e. before strictly greater elements and after equal ones
when used as the step of `sSort` below. -/
def sInsert {α : Type} (le : α → α → Bool) (x : α) : List α → List α
  | [] => [x]
  | y :: ys => if le x y then x :: y :: ys else y :: sInsert le x ys

/-- Stable insertion sort. -/
def sSort {α : Type} (le : α → α → Bool) : List α → List α
  | [] => []
  | x :: xs => sInsert le x (sSort le xs)

theorem sInsert_perm {α : Type} (le : α → α → Bool) (x : α) (l : List α) :
    (sInsert le x l).Perm (x :: l) := by
  induction l with
  | nil => simp [sInsert]
  | cons y ys ih =>
    simp only [sInsert]
    split
    · exact List.Perm.refl _
    · exact (List.Perm.cons y ih).trans (List.Perm.swap x y ys)

theorem sSort_perm {α : Type} (le : α → α → Bool) (l : List α) :
    (sSort le l).Perm l := by
  induction l with
  | nil => exact List.Perm.refl _
  | cons x xs ih => exact (sInsert_perm le x (sSort le xs)).trans (List.Perm.cons x ih)

/-! ## `math.rs`: `Vec3` and `Ray` over ℚ -/

structure Vec3 where
  x : ℚ
  y : ℚ
  z : ℚ
deriving DecidableEq, Repr

namespace Vec3

def mkv (x y z : ℚ) : Vec3 := ⟨x, y, z⟩

def zero : Vec3 := ⟨0, 0, 0⟩

def add (a b : Vec3) : Vec3 := ⟨a.x + b.x, a.y + b.y, a.z + b.z⟩

def sub (a b : Vec3) : Vec3 := ⟨a.x - b.x, a.y - b.y, a.z - b.z⟩

def smul (a : Vec3) (s : ℚ) : Vec3 := ⟨a.x * s, a.y * s, a.z * s⟩

def sdiv (a : Vec3) (s : ℚ) : Vec3 := ⟨a.x / s, a.y / s, a.z / s⟩

def dot (a b : Vec3) : ℚ := a.x * b.x + a.y * b.y + a.z * b.z

def cross (a b : Vec3) : Vec3 :=
  ⟨a.y * b.z - a.z * b.y, a.z * b.x - a.x * b.z, a.x * b.y - a.y * b.x⟩

def length (a : Vec3) : ℚ := sqrtQ (a.dot a)

def normalized (a : Vec3) : Vec3 :=
  let len := a.length
  if len = 0 then a else a.sdiv len

def vmin (a b : Vec3) : Vec3 := ⟨min a.x b.x, min a.y b.y, min a.z b.z⟩

def vmax (a b : Vec3) : Vec3 := ⟨max a.x b.x, max a.y b.y, max a.z b.z⟩

def clamp01 (a : Vec3) : Vec3 :=
  ⟨min (max a.x 0) 1, min (max a.y 0) 1, min (max a.z 0) 1⟩

def mulElem (a b : Vec3) : Vec3 := ⟨a.x * b.x, a.y * b.y, a.z * b.z⟩

end Vec3

theorem Vec3.dot_self_nonneg (a : Vec3) : 0 ≤ a.dot a := by
  simp only [Vec3.dot]
  nlinarith [mul_self_nonneg a.x, mul_self_nonneg a.y, mul_self_nonneg a.z]

theorem Vec3.dot_self_pos (a : Vec3) (h : a ≠ Vec3.zero) : 0 < a.dot a := by
  rcases lt_or_eq_of_le (Vec3.dot_self_nonneg a) with h1 | h1
  · exact h1
  · exfalso
    apply h
    simp only [Vec3.dot] at h1
    have hx : a.x = 0 := by nlinarith [mul_self_nonneg a.x, mul_self_nonneg a.y, mul_self_nonneg a.z]
    have hy : a.y = 0 := by nlinarith [mul_self_nonneg a.x, mul_self_nonneg a.y, mul_self_nonneg a.z]
    have hz : a.z = 0 := by nlinarith [mul_self_nonneg a.x, mul_self_nonneg a.y, mul_self_nonneg a.z]
    cases a with
    | mk x y z =>
      simp only at hx hy hz
      rw [Vec3.zero, hx, hy, hz]

structure Ray where
  origin : Vec3
  direction : Vec3
deriving DecidableEq, Repr

/-- `Ray::at`. -/
def Ray.at (r : Ray) (t : ℚ) : Vec3 := r.origin.add (r.direction.smul t)

/-! ## `geometry.rs`: `Hit` and `Sphere` -/

structure Hit where
  t : ℚ
  point : Vec3
  normal : Vec3
  albedo : Vec3
  emission : Vec3
deriving DecidableEq, Repr

structure Sphere where
  center : Vec3
  radius : ℚ
  albedo : Vec3
  emission : Vec3
deriving DecidableEq, Repr

namespace Sphere

/-- Local `oc` of `Sphere::hit`. -/
def oc (s : Sphere) (ray : Ray) : Vec3 := ray.origin.sub s.center

/-- Local `a` of `Sphere::hit` (squared length of the ray direction). -/
def qa (_s : Sphere) (ray : Ray) : ℚ := ray.direction.dot ray.direction

/-- Local `half_b` of `Sphere::hit`. -/
def halfB (s : Sphere) (ray : Ray) : ℚ := (s.oc ray).dot ray.direction

/-- Local `c` of `Sphere::hit`. -/
def qc (s : Sphere) (ray : Ray) : ℚ := (s.oc ray).dot (s.oc ray) - s.radius * s.radius

/-- Local `discriminant` of `Sphere::hit`. -/
def disc (s : Sphere) (ray : Ray) : ℚ := s.halfB ray * s.halfB ray - s.qa ray * s.qc ray

/-- The near root `(-half_b - sqrt_d) / a`. -/
def root1 (s : Sphere) (ray : Ray) : ℚ := (-s.halfB ray - sqrtQ (s.disc ray)) / s.qa ray

/-- The far root `(-half_b + sqrt_d) / a`. -/
def root2 (s : Sphere) (ray : Ray) : ℚ := (-s.halfB ray + sqrtQ (s.disc ray)) / s.qa ray

/-- The `Hit` record `Sphere::hit` builds for root `t`. -/
def mkHit (s : Sphere) (ray : Ray) (t : ℚ) : Hit :=
  ⟨t, ray.at t, ((ray.at t).sub s.center).sdiv s.radius, s.albedo, s.emission⟩

/-- `Sphere::hit`: reject a negative discriminant, prefer the near root,
fall back to the far root, reject roots outside `[tMin, tMax]`.  The Rust
code mutates a local `root`; the nested `if`s below are that control flow,
with the Rust locals lifted to the named definitions above. -/
def hit (s : Sphere) (ray : Ray) (tMin tMax : ℚ) : Option Hit :=
  if s.disc ray < 0 then none
  else if s.root1 ray < tMin ∨ s.root1 ray > tMax then
    if s.root2 ray < tMin ∨ s.root2 ray > tMax then none
    else some (s.mkHit ray (s.root2 ray))
  else some (s.mkHit ray (s.root1 ray))

@[simp] theorem mkHit_t (s : Sphere) (ray : Ray) (t : ℚ) : (s.mkHit ray t).t = t := rfl

theorem root1_le_root2 (s : Sphere) (ray : Ray) (ha : 0 < s.qa ray) :
    s.root1 ray ≤ s.root2 ray := by
  unfold root1 root2
  gcongr
  have := sqrtQ_nonneg (s.disc ray)
  linarith

/-- A returned hit's parameter lies inside the query window. -/
theorem hit_t_mem (s : Sphere) (ray : Ray) (tMin tMax : ℚ) (h : Hit)
    (hh : s.hit ray tMin tMax = some h) : tMin ≤ h.t ∧ h.t ≤ tMax := by
  unfold hit at hh
  split_ifs at hh with h1 h2 h3
  · injection hh with hh; subst hh; push_neg at h3
    simpa using h3
  · injection hh with hh; subst hh; push_neg at h2
    simpa using h2

/-- A returned hit is also returned, unchanged, by any narrower window that
still contains its parameter. -/
theorem hit_narrow (s : Sphere) (ray : Ray) (tMin T Tn : ℚ) (h : Hit)
    (hh : s.hit ray tMin T = some h) (h1 : h.t ≤ Tn) (h2 : Tn ≤ T) :
    s.hit ray tMin Tn = some h := by
  unfold hit at hh ⊢
  split_ifs at hh with hd hr1 hr2
  · -- far root selected under the wide window
    injection hh with hh
    have hr2t : s.root2 ray ≤ Tn := by rw [← hh] at h1; simpa using h1
    push_neg at hr2
    have hA : s.root1 ray < tMin ∨ s.root1 ray > Tn := by
      rcases hr1 with hc | hc
      · exact Or.inl hc
      · exact Or.inr (lt_of_le_of_lt h2 (by simpa using hc))
    rw [if_neg hd, if_pos hA, if_neg (by push_neg; exact ⟨hr2.1, hr2t⟩)]
    exact congrArg some hh
  · -- near root selected under the wide window
    injection hh with hh
    have hr1t : s.root1 ray ≤ Tn := by rw [← hh] at h1; simpa using h1
    push_neg at hr1
    rw [if_neg hd, if_neg (by push_neg; exact ⟨hr1.1, hr1t⟩)]
    exact congrArg some hh

/-- A hit returned under a narrow window is returned unchanged by any wider
window (the near root cannot newly become eligible: it is below the far
root, which already fit the narrow window). -/
theorem hit_widen (s : Sphere) (ray : Ray) (tMin Tn T : ℚ) (h : Hit)
    (ha : 0 < s.qa ray)
    (hh : s.hit ray tMin Tn = some h) (h2 : Tn ≤ T) :
    s.hit ray tMin T = some h := by
  unfold hit at hh ⊢
  split_ifs at hh with hd hr1 hr2
  · -- far root selected under the narrow window
    injection hh with hh
    push_neg at hr2
    have hle := s.root1_le_root2 ray ha
    rcases hr1 with hc | hc
    · -- root1 < tMin also under the wide window
      rw [if_neg hd, if_pos (Or.inl hc),
        if_neg (by push_neg; exact ⟨hr2.1, le_trans (by simpa using hr2.2) h2⟩)]
      exact congrArg some hh
    · -- root1 > Tn and root2 ≤ Tn contradicts root1 ≤ root2
      exfalso
      simp only [gt_iff_lt, not_lt] at hc hr2
      linarith [hr2.2]
  · -- near root selected under the narrow window: still eligible when widened
    injection hh with hh
    push_neg at hr1
    rw [if_neg hd, if_neg (by push_neg; exact ⟨hr1.1, le_trans (by simpa using hr1.2) h2⟩)]
    exact congrArg some hh

/-- If the wide window finds nothing, neither does any narrower window. -/
theorem hit_none_narrow (s : Sphere) (ray : Ray) (tMin T Tn : ℚ)
    (hh : s.hit ray tMin T = none) (h2 : Tn ≤ T) :
    s.hit ray tMin Tn = none := by
  unfold hit at hh ⊢
  split_ifs at hh with hd hr1 hr2
  · rw [if_pos hd]
  · have hA : s.root1 ray < tMin ∨ s.root1 ray > Tn := by
      rcases hr1 with hc | hc
      · exact Or.inl hc
      · exact Or.inr (by simp only [gt_iff_lt] at hc ⊢; linarith)
    have hB : s.root2 ray < tMin ∨ s.root2 ray > Tn := by
      rcases hr2 with hc | hc
      · exact Or.inl hc
      · exact Or.inr (by simp only [gt_iff_lt] at hc ⊢; linarith)
    rw [if_neg hd, if_pos hA, if_pos hB]

/-- Value of the squared distance from a ray point to the sphere center, in
terms of the quadratic's coefficients. -/
theorem dist_expand (s : Sphere) (ray : Ray) (t : ℚ) :
    ((ray.at t).sub s.center).dot ((ray.at t).sub s.center)
      = s.qc ray + s.radius * s.radius + 2 * t * s.halfB ray + t * t * s.qa ray := by
  simp only [Ray.at, Vec3.sub, Vec3.add, Vec3.smul, Vec3.dot, qc, halfB, qa, oc]
  ring

theorem quad_at_root (a hb c e : ℚ) (ha : 0 < a) (he : e * e ≤ hb * hb - a * c) :
    c + 2 * ((-hb + e) / a) * hb + ((-hb + e) / a) * ((-hb + e) / a) * a ≤ 0 := by
  have hne : a ≠ 0 := ne_of_gt ha
  have key : a * (c + 2 * ((-hb + e) / a) * hb + ((-hb + e) / a) * ((-hb + e) / a) * a)
      = e * e - (hb * hb - a * c) := by
    field_simp
    ring
  nlinarith [key, he, ha]

/-- The point of a returned hit lies inside the closed ball of the sphere
(with the under-approximated square root it can lie strictly inside). -/
theorem hit_point_in_ball (s : Sphere) (ray : Ray) (tMin tMax : ℚ) (h : Hit)
    (ha : 0 < s.qa ray)
    (hh : s.hit ray tMin tMax = some h) :
    ((ray.at h.t).sub s.center).dot ((ray.at h.t).sub s.center) ≤ s.radius * s.radius := by
  unfold hit at hh
  have hd : ¬ s.disc ray < 0 := by
    intro hcon
    rw [if_pos hcon] at hh
    cases hh
  have hsq : sqrtQ (s.disc ray) * sqrtQ (s.disc ray) ≤ s.halfB ray * s.halfB ray - s.qa ray * s.qc ray := by
    have := sqrtQ_sq_le (s.disc ray) (by unfold disc at hd ⊢; linarith [not_lt.mp hd])
    unfold disc at this
    exact this
  rw [dist_expand]
  split_ifs at hh with hr1 hr2
  · injection hh with hh
    rw [← hh]
    have : s.root2 ray = (-s.halfB ray + sqrtQ (s.disc ray)) / s.qa ray := rfl
    simp only [mkHit_t, this]
    linarith [quad_at_root (s.qa ray) (s.halfB ray) (s.qc ray) (sqrtQ (s.disc ray)) ha hsq]
  · injection hh with hh
    rw [← hh]
    have hre : s.root1 ray = (-s.halfB ray + (-sqrtQ (s.disc ray))) / s.qa ray := by
      unfold root1
      ring_nf
    simp only [mkHit_t, hre]
    have he2 : (-sqrtQ (s.disc ray)) * (-sqrtQ (s.disc ray))
        ≤ s.halfB ray * s.halfB ray - s.qa ray * s.qc ray := by
      have : (-sqrtQ (s.disc ray)) * (-sqrtQ (s.disc ray)) = sqrtQ (s.disc ray) * sqrtQ (s.disc ray) := by ring
      rw [this]; exact hsq
    linarith [quad_at_root (s.qa ray) (s.halfB ray) (s.qc ray) (-sqrtQ (s.disc ray)) ha he2]

end Sphere

/-! ## `bvh.rs`: axis-aligned bounding boxes and the slab test -/

/-- `Aabb`; field `lo` is the Rust `min`, `hi` is the Rust `max`. -/
structure Aabb where
  lo : Vec3
  hi : Vec3
deriving DecidableEq, Repr

/-- `Aabb::from_sphere`. -/
def Aabb.fromSphere (s : Sphere) : Aabb :=
  ⟨s.center.sub ⟨s.radius, s.radius, s.radius⟩, s.center.add ⟨s.radius, s.radius, s.radius⟩⟩

/-- `Aabb::union`. -/
def Aabb.union (a b : Aabb) : Aabb := ⟨a.lo.vmin b.lo, a.hi.vmax b.hi⟩

/-- `Aabb::extent`. -/
def Aabb.extent (a : Aabb) : Vec3 := a.hi.sub a.lo

/-- `hit_axis`: one slab test.  The Rust function mutates `t_min`/`t_max`
through `&mut`; here it returns the flag together with the updated pair.
A zero direction component checks the origin against the slab and leaves
the running interval unchanged. -/
def hitAxis (mn mx o d a1 a2 : ℚ) : Bool × ℚ × ℚ :=
  if d = 0 then (if mn ≤ o ∧ o ≤ mx then true else false, a1, a2)
  else
    let invD := 1 / d
    let t0 := (mn - o) * invD
    let t1 := (mx - o) * invD
    let tt := if invD < 0 then (t1, t0) else (t0, t1)
    let b1 := max tt.1 a1
    let b2 := min tt.2 a2
    (if b1 < b2 then true else false, b1, b2)

/-- `Aabb::hit`: the three slab tests in sequence with early exit
(`if !hit_axis(..) { return false }`). -/
def Aabb.hit (b : Aabb) (ray : Ray) (tMin tMax : ℚ) : Bool :=
  let rx := hitAxis b.lo.x b.hi.x ray.origin.x ray.direction.x tMin tMax
  if rx.1 = false then false
  else
    let ry := hitAxis b.lo.y b.hi.y ray.origin.y ray.direction.y rx.2.1 rx.2.2
    if ry.1 = false then false
    else (hitAxis b.lo.z b.hi.z ray.origin.z ray.direction.z ry.2.1 ry.2.2).1

/-- One slab step is conservative.  `t` is a parameter at which the ray
point deviates from the slab's generating sphere center `c` by at most `r`
in this coordinate; the slab covers `[c - r, c + r]`.  The evidence
propositions `E1`/`E2` record why the running interval ends could already
equal `t`; the hypotheses `hc2`/`hc3` say such evidence cannot coexist with
this axis also pinning `t` (supplied by the caller from the ball bound). -/
theorem hitAxis_pass (mn mx o d t a1 a2 c r : ℚ) (E1 E2 : Prop)
    (hmn : mn ≤ c - r) (hmx : c + r ≤ mx) (hr : 0 < r)
    (hdev : (o + t * d - c) * (o + t * d - c) ≤ r * r)
    (h1 : a1 ≤ t) (h2 : t ≤ a2)
    (hE1 : a1 = t → E1) (hE2 : a2 = t → E2)
    (hnb : ¬(a1 = t ∧ a2 = t))
    (hc2 : ¬(E1 ∧ r * r ≤ (o + t * d - c) * (o + t * d - c)))
    (hc3 : ¬(E2 ∧ r * r ≤ (o + t * d - c) * (o + t * d - c))) :
    (hitAxis mn mx o d a1 a2).1 = true ∧
    (hitAxis mn mx o d a1 a2).2.1 ≤ t ∧ t ≤ (hitAxis mn mx o d a1 a2).2.2 ∧
    ((hitAxis mn mx o d a1 a2).2.1 = t → E1 ∨ r * r ≤ (o + t * d - c) * (o + t * d - c)) ∧
    ((hitAxis mn mx o d a1 a2).2.2 = t → E2 ∨ r * r ≤ (o + t * d - c) * (o + t * d - c)) ∧
    ¬((hitAxis mn mx o d a1 a2).2.1 = t ∧ (hitAxis mn mx o d a1 a2).2.2 = t) := by
  have hdlo : -r ≤ o + t * d - c := by nlinarith
  have hdhi : o + t * d - c ≤ r := by nlinarith
  by_cases hd : d = 0
  · -- degenerate axis: origin lies inside the slab, interval unchanged
    have hin : mn ≤ o ∧ o ≤ mx := by
      constructor
      · have : c - r ≤ o := by rw [hd] at hdlo; linarith
        linarith
      · have : o ≤ c + r := by rw [hd] at hdhi; linarith
        linarith
    simp only [hitAxis, if_pos hd, if_pos hin]
    exact ⟨trivial, h1, h2, fun h => Or.inl (hE1 h), fun h => Or.inl (hE2 h), hnb⟩
  · -- proper slab: clip the interval
    have hmnmx : mn < mx := by nlinarith
    simp only [hitAxis, if_neg hd]
    set invD := 1 / d with hinv
    set t0 := (mn - o) * invD with ht0
    set t1 := (mx - o) * invD with ht1
    -- the sorted slab entry/exit
    have hkey : ∀ tt : ℚ × ℚ, (if invD < 0 then (t1, t0) else (t0, t1)) = tt →
        tt.1 ≤ t ∧ t ≤ tt.2 ∧
        (tt.1 = t → r * r ≤ (o + t * d - c) * (o + t * d - c)) ∧
        (tt.2 = t → r * r ≤ (o + t * d - c) * (o + t * d - c)) ∧ tt.1 ≠ tt.2 := by
      intro tt htt
      have hmn' : mn ≤ o + t * d := by linarith
      have hmx' : o + t * d ≤ mx := by linarith
      have ht0p : t0 * d = mn - o := by
        rw [ht0, hinv]
        field_simp
      have ht1p : t1 * d = mx - o := by
        rw [ht1, hinv]
        field_simp
      have hpin0 : t0 = t → r * r ≤ (o + t * d - c) * (o + t * d - c) := by
        intro he
        have : o + t * d = mn := by
          have := ht0p
          rw [he] at this
          linarith
        nlinarith
      have hpin1 : t1 = t → r * r ≤ (o + t * d - c) * (o + t * d - c) := by
        intro he
        have : o + t * d = mx := by
          have := ht1p
          rw [he] at this
          linarith
        nlinarith
      have hne : t0 ≠ t1 := by
        intro he
        have : t0 * d = t1 * d := by rw [he]
        rw [ht0p, ht1p] at this
        have : mn = mx := by linarith
        linarith
      rcases lt_or_le invD 0 with hneg | hpos
      · have hdneg : d < 0 := by
          rcases lt_trichotomy d 0 with h | h | h
          · exact h
          · exact absurd h hd
          · exfalso
            rw [hinv] at hneg
            have : 0 < 1 / d := by positivity
            linarith
        rw [if_pos hneg] at htt
        have e1 : t1 ≤ t := by
          -- t1 * d = mx - o and d < 0: t1 ≤ t ↔ t1 * d ≥ t * d
          nlinarith [ht1p, hmx']
        have e2 : t ≤ t0 := by
          nlinarith [ht0p, hmn']
        subst htt
        exact ⟨e1, e2, hpin1, hpin0, fun he => hne he.symm⟩
      · have hdpos : 0 < d := by
          rcases lt_trichotomy d 0 with h | h | h
          · exfalso
            rw [hinv] at hpos
            have : 1 / d < 0 := by
              apply div_neg_of_pos_of_neg one_pos h
            linarith
          · exact absurd h hd
          · exact h
        rw [if_neg (not_lt.mpr hpos)] at htt
        have e1 : t0 ≤ t := by
          nlinarith [ht0p, hmn']
        have e2 : t ≤ t1 := by
          nlinarith [ht1p, hmx']
        subst htt
        exact ⟨e1, e2, hpin0, hpin1, hne⟩
    obtain ⟨hs1, hs2, hp1, hp2, hsne⟩ := hkey _ rfl
    set tt := if invD < 0 then (t1, t0) else (t0, t1) with htt
    set b1 := max tt.1 a1 with hb1
    set b2 := min tt.2 a2 with hb2
    have hb1t : b1 ≤ t := by rw [hb1]; exact max_le hs1 h1
    have hb2t : t ≤ b2 := by rw [hb2]; exact le_min hs2 h2
    have hb1src : b1 = t → E1 ∨ r * r ≤ (o + t * d - c) * (o + t * d - c) := by
      intro he
      rw [hb1] at he
      rcases max_choice tt.1 a1 with h | h <;> rw [h] at he
      · exact Or.inr (hp1 he)
      · exact Or.inl (hE1 he)
    have hb2src : b2 = t → E2 ∨ r * r ≤ (o + t * d - c) * (o + t * d - c) := by
      intro he
      rw [hb2] at he
      rcases min_choice tt.2 a2 with h | h <;> rw [h] at he
      · exact Or.inr (hp2 he)
      · exact Or.inl (hE2 he)
    have hstrict : b1 < b2 := by
      rcases lt_or_le b1 b2 with h | h
      · exact h
      · exfalso
        have hbe1 : b1 = t := le_antisymm hb1t (le_trans hb2t h)
        have hbe2 : b2 = t := le_antisymm (le_trans h hb1t) hb2t
        rcases max_choice tt.1 a1 with hx | hx <;> rcases min_choice tt.2 a2 with hy | hy
        · -- both pinned by this axis: slab entry equals exit, impossible
          apply hsne
          rw [hb1, hx] at hbe1
          rw [hb2, hy] at hbe2
          rw [hbe1, hbe2]
        · -- slab pins the low end, carried evidence pins the high end
          apply hc3
          rw [hb1, hx] at hbe1
          rw [hb2, hy] at hbe2
          exact ⟨hE2 hbe2, hp1 hbe1⟩
        · -- carried evidence pins the low end, slab pins the high end
          apply hc2
          rw [hb1, hx] at hbe1
          rw [hb2, hy] at hbe2
          exact ⟨hE1 hbe1, hp2 hbe2⟩
        · -- both ends carried: excluded by the incoming invariant
          apply hnb
          rw [hb1, hx] at hbe1
          rw [hb2, hy] at hbe2
          exact ⟨hbe1, hbe2⟩
    refine ⟨by simp [if_pos hstrict], hb1t, hb2t, hb1src, hb2src, ?_⟩
    intro ⟨he1, he2⟩
    rw [he1, he2] at hstrict
    exact lt_irrefl t hstrict

/-- The slab test is conservative: if some parameter `t` strictly inside
the query window puts the ray inside a sphere (ball bound), and the box
contains that sphere's bounding box, then `Aabb::hit` accepts. -/
theorem Aabb.hit_of_ball (b : Aabb) (ray : Ray) (tMin tMax t : ℚ) (c : Vec3) (r : ℚ)
    (hr : 0 < r)
    (hlox : b.lo.x ≤ c.x - r) (hhix : c.x + r ≤ b.hi.x)
    (hloy : b.lo.y ≤ c.y - r) (hhiy : c.y + r ≤ b.hi.y)
    (hloz : b.lo.z ≤ c.z - r) (hhiz : c.z + r ≤ b.hi.z)
    (hball : ((ray.at t).sub c).dot ((ray.at t).sub c) ≤ r * r)
    (ht1 : tMin < t) (ht2 : t < tMax) :
    b.hit ray tMin tMax = true := by
  have hx2 : ((ray.at t).sub c).x = ray.origin.x + t * ray.direction.x - c.x := by
    simp only [Ray.at, Vec3.sub, Vec3.add, Vec3.smul]
    ring
  have hy2 : ((ray.at t).sub c).y = ray.origin.y + t * ray.direction.y - c.y := by
    simp only [Ray.at, Vec3.sub, Vec3.add, Vec3.smul]
    ring
  have hz2 : ((ray.at t).sub c).z = ray.origin.z + t * ray.direction.z - c.z := by
    simp only [Ray.at, Vec3.sub, Vec3.add, Vec3.smul]
    ring
  set dx := ray.origin.x + t * ray.direction.x - c.x with hdx
  set dy := ray.origin.y + t * ray.direction.y - c.y with hdy
  set dz := ray.origin.z + t * ray.direction.z - c.z with hdz
  have hsum : dx * dx + dy * dy + dz * dz ≤ r * r := by
    have := hball
    simp only [Vec3.dot] at this
    rw [hx2, hy2, hz2] at this
    linarith
  have hdevx : dx * dx ≤ r * r := by nlinarith [mul_self_nonneg dy, mul_self_nonneg dz]
  have hdevy : dy * dy ≤ r * r := by nlinarith [mul_self_nonneg dx, mul_self_nonneg dz]
  have hdevz : dz * dz ≤ r * r := by nlinarith [mul_self_nonneg dx, mul_self_nonneg dy]
  -- two distinct axes cannot both deviate by at least r
  have htwo : ∀ u v : ℚ, u * u + v * v ≤ r * r → ¬(r * r ≤ u * u ∧ r * r ≤ v * v) := by
    intro u v huv ⟨hu, hv⟩
    nlinarith
  -- axis x with no carried evidence
  obtain ⟨hx1, hxa, hxb, hxsrc1, hxsrc2, hxnb⟩ :=
    hitAxis_pass b.lo.x b.hi.x ray.origin.x ray.direction.x t tMin tMax c.x r
      False False hlox hhix hr (by rw [← hdx]; exact hdevx)
      (le_of_lt ht1) (le_of_lt ht2)
      (fun h => absurd h (ne_of_lt ht1)) (fun h => absurd h (ne_of_gt ht2))
      (by intro h; exact absurd h.1 (ne_of_lt ht1))
      (fun h => h.1) (fun h => h.1)
  set rx := hitAxis b.lo.x b.hi.x ray.origin.x ray.direction.x tMin tMax with hrx
  -- axis y; carried evidence: x pinned t
  obtain ⟨hy1, hya, hyb, hysrc1, hysrc2, hynb⟩ :=
    hitAxis_pass b.lo.y b.hi.y ray.origin.y ray.direction.y t rx.2.1 rx.2.2 c.y r
      (False ∨ r * r ≤ dx * dx) (False ∨ r * r ≤ dx * dx) hloy hhiy hr
      (by rw [← hdy]; exact hdevy) hxa hxb
      (fun h => by
        rcases hxsrc1 h with hf | hok
        · exact absurd hf id
        · exact Or.inr (by rw [hdx]; exact hok))
      (fun h => by
        rcases hxsrc2 h with hf | hok
        · exact absurd hf id
        · exact Or.inr (by rw [hdx]; exact hok))
      hxnb
      (by
        intro ⟨he, hy'⟩
        rcases he with hf | hex
        · exact hf
        · exact htwo dx dy (by nlinarith [mul_self_nonneg dz]) ⟨hex, hy'⟩)
      (by
        intro ⟨he, hy'⟩
        rcases he with hf | hex
        · exact hf
        · exact htwo dx dy (by nlinarith [mul_self_nonneg dz]) ⟨hex, hy'⟩)
  set ry := hitAxis b.lo.y b.hi.y ray.origin.y ray.direction.y rx.2.1 rx.2.2 with hry
  -- axis z; carried evidence: x or y pinned t
  obtain ⟨hz1, _, _, _, _, _⟩ :=
    hitAxis_pass b.lo.z b.hi.z ray.origin.z ray.direction.z t ry.2.1 ry.2.2 c.z r
      ((r * r ≤ dx * dx) ∨ (r * r ≤ dy * dy)) ((r * r ≤ dx * dx) ∨ (r * r ≤ dy * dy))
      hloz hhiz hr (by rw [← hdz]; exact hdevz) hya hyb
      (fun h => by
        rcases hysrc1 h with he | hok
        · rcases he with hf | hex
          · exact absurd hf id
          · exact Or.inl hex
        · exact Or.inr hok)
      (fun h => by
        rcases hysrc2 h with he | hok
        · rcases he with hf | hex
          · exact absurd hf id
          · exact Or.inl hex
        · exact Or.inr hok)
      hynb
      (by
        intro ⟨he, hz'⟩
        rcases he with hex | hey
        · exact htwo dx dz (by nlinarith [mul_self_nonneg dy]) ⟨hex, hz'⟩
        · exact htwo dy dz (by nlinarith [mul_self_nonneg dx]) ⟨hey, hz'⟩)
      (by
        intro ⟨he, hz'⟩
        rcases he with hex | hey
        · exact htwo dx dz (by nlinarith [mul_self_nonneg dy]) ⟨hex, hz'⟩
        · exact htwo dy dz (by nlinarith [mul_self_nonneg dx]) ⟨hey, hz'⟩)
  -- assemble the early-exit chain
  show Aabb.hit b ray tMin tMax = true
  rw [Aabb.hit]
  simp only [← hrx, ← hry]
  rw [if_neg (by rw [hx1]; simp), if_neg (by rw [hy1]; simp)]
  exact hz1

/-! ## `bvh.rs`: tree construction and query -/

/-- `LEAF_SIZE`. -/
def leafSize : Nat := 4

/-- Out-of-range sphere access falls back to a degenerate sphere; every
index reached in the development is proved in range, mirroring Rust's
panicking `spheres[idx]`. -/
def sphAt (spheres : List Sphere) (i : Nat) : Sphere :=
  spheres.getD i ⟨Vec3.zero, 0, Vec3.zero, Vec3.zero⟩

/-- `sphere_center_axis`. -/
def sphereCenterAxis (s : Sphere) (axis : Nat) : ℚ :=
  if axis = 0 then s.center.x else if axis = 1 then s.center.y else s.center.z

/-- The bounding box `BvhNode::build` folds over its index range.  Rust
starts the fold from `Aabb::empty()` (`±∞` bounds, the identity of
`union`); over ℚ the same fold is expressed from the first element's box.
`build` is only ever called with a non-empty range; the `[]` value below is
never read. -/
def aabbOfIndices (spheres : List Sphere) (idxs : List Nat) : Aabb :=
  match idxs with
  | [] => ⟨Vec3.zero, Vec3.zero⟩
  | i :: rest =>
    rest.foldl (fun b j => b.union (Aabb.fromSphere (sphAt spheres j)))
      (Aabb.fromSphere (sphAt spheres i))

/-- `BvhNode`: `left`/`right` model `Option<Box<BvhNode>>`; `sidx`/`eidx`
are the Rust `start`/`end` offsets into the `Bvh`-owned index array. -/
inductive BvhNode where
  | mk (bbox : Aabb) (left : Option BvhNode) (right : Option BvhNode) (sidx eidx : Nat)

def BvhNode.bbox : BvhNode → Aabb
  | .mk b _ _ _ _ => b

def BvhNode.left : BvhNode → Option BvhNode
  | .mk _ l _ _ _ => l

def BvhNode.right : BvhNode → Option BvhNode
  | .mk _ _ r _ _ => r

def BvhNode.sidx : BvhNode → Nat
  | .mk _ _ _ s _ => s

def BvhNode.eidx : BvhNode → Nat
  | .mk _ _ _ _ e => e

/-- The split axis `BvhNode::build` picks: the largest extent of the
range's bounding box. -/
def buildAxis (spheres : List Sphere) (idxs : List Nat) : Nat :=
  let ext := (aabbOfIndices spheres idxs).extent
  if ext.x ≥ ext.y ∧ ext.x ≥ ext.z then 0 else if ext.y ≥ ext.z then 1 else 2

/-- The in-place `indices.sort_by` on the chosen axis: stable sort by the
primitive center's coordinate (`partial_cmp` is total on the rationals). -/
def buildSorted (spheres : List Sphere) (idxs : List Nat) : List Nat :=
  sSort (fun i j =>
    decide (sphereCenterAxis (sphAt spheres i) (buildAxis spheres idxs)
      ≤ sphereCenterAxis (sphAt spheres j) (buildAxis spheres idxs))) idxs

/-- `BvhNode::build`, with an explicit fuel argument (the Rust recursion
terminates because both halves of a median split are strictly shorter; any
fuel of at least `idxs.length` reproduces it exactly, and callers supply
such fuel).  The fuel-0 value is never reached. -/
def BvhNode.build : Nat → List Nat → List Sphere → Nat → BvhNode × List Nat
  | 0, idxs, _spheres, offset =>
    (⟨⟨Vec3.zero, Vec3.zero⟩, none, none, offset, offset + idxs.length⟩, idxs)
  | fuel+1, idxs, spheres, offset =>
    if idxs.length ≤ leafSize then
      (⟨aabbOfIndices spheres idxs, none, none, offset, offset + idxs.length⟩, idxs)
    else
      let sorted := buildSorted spheres idxs
      let mid := sorted.length / 2
      let lres := BvhNode.build fuel (sorted.take mid) spheres offset
      let rres := BvhNode.build fuel (sorted.drop mid) spheres (offset + mid)
      (⟨lres.1.bbox.union rres.1.bbox, some lres.1, some rres.1, 0, 0⟩, lres.2 ++ rres.2)

/-- One step of the closest-hit scan: try the sphere against the current
window `[tMin, acc.2]`; on a hit, narrow the window to the hit's `t`. -/
def scanStep (spheres : List Sphere) (ray : Ray) (tMin : ℚ) (acc : Option Hit × ℚ) (idx : Nat) :
    Option Hit × ℚ :=
  match (sphAt spheres idx).hit ray tMin acc.2 with
  | some h => (some h, h.t)
  | none => acc

def scanGo (spheres : List Sphere) (ray : Ray) (tMin : ℚ) (ids : List Nat)
    (acc : Option Hit × ℚ) : Option Hit × ℚ :=
  ids.foldl (scanStep spheres ray tMin) acc

/-- The leaf scan of `BvhNode::hit` (also the shape of the brute-force
reference loop): fold over ids keeping the closest hit, narrowing the upper
bound to each accepted hit's `t`. -/
def scanIds (spheres : List Sphere) (ids : List Nat) (ray : Ray) (tMin tMax : ℚ) : Option Hit :=
  (scanGo spheres ray tMin ids ((none : Option Hit), tMax)).1

/-- `hit_right.or(hit_left)`. -/
def optOr (a b : Option Hit) : Option Hit :=
  match a with
  | some x => some x
  | none => b

/-- `BvhNode::hit`, fuelled (any fuel exceeding the tree height reproduces
the Rust recursion; `Bvh::hit` supplies such fuel). -/
def BvhNode.hitFuel : Nat → BvhNode → Ray → ℚ → ℚ → List Sphere → List Nat → Option Hit
  | 0, _, _, _, _, _, _ => none
  | fuel+1, n, ray, tMin, tMax, spheres, indices =>
    if n.bbox.hit ray tMin tMax = false then none
    else if n.left.isNone ∧ n.right.isNone then
      scanIds spheres ((indices.drop n.sidx).take (n.eidx - n.sidx)) ray tMin tMax
      -- `(indices.drop sidx).take (eidx - sidx)` is `slice indices sidx eidx`
    else
      let lres := match n.left with
        | none => none
        | some l => BvhNode.hitFuel fuel l ray tMin tMax spheres indices
      let closestT := match lres with
        | some h => h.t
        | none => tMax
      let rres := match n.right with
        | none => none
        | some r => BvhNode.hitFuel fuel r ray tMin closestT spheres indices
      optOr rres lres

structure Bvh where
  spheres : List Sphere
  indices : List Nat
  root : BvhNode

/-- `Bvh::new`: index array `0..n` permuted in place by the build; an empty
input gets a never-queried placeholder root (Rust stores `Aabb::empty()`
there; `Bvh::hit` returns before ever reading it). -/
def Bvh.new (spheres : List Sphere) : Bvh :=
  let indices := List.range spheres.length
  if indices.isEmpty then
    ⟨spheres, indices, ⟨⟨Vec3.zero, Vec3.zero⟩, none, none, 0, 0⟩⟩
  else
    let res := BvhNode.build indices.length indices spheres 0
    ⟨spheres, res.2, res.1⟩

/-- `Bvh::hit`. -/
def Bvh.hit (b : Bvh) (ray : Ray) (tMin tMax : ℚ) : Option Hit :=
  if b.indices.isEmpty then none
  else BvhNode.hitFuel (b.indices.length + 1) b.root ray tMin tMax b.spheres b.indices

/-- The brute-force reference scan from `tests/bvh_tests.rs`, generalised
from `[0.001, ∞)` to an arbitrary window. -/
def bruteHit (ray : Ray) (spheres : List Sphere) (tMin tMax : ℚ) : Option Hit :=
  (spheres.foldl
    (fun acc s =>
      match s.hit ray tMin acc.2 with
      | some h => (some h, h.t)
      | none => acc)
    ((none : Option Hit), tMax)).1

/-! ## BVH well-formedness -/

/-- Contiguous range `[lo, hi)` of the global index array. -/
def slice (g : List Nat) (lo hi : Nat) : List Nat := (g.drop lo).take (hi - lo)

/-- The box `b` contains the axis-aligned bounding box of sphere `s`. -/
def boxContains (b : Aabb) (s : Sphere) : Prop :=
  b.lo.x ≤ s.center.x - s.radius ∧ s.center.x + s.radius ≤ b.hi.x ∧
  b.lo.y ≤ s.center.y - s.radius ∧ s.center.y + s.radius ≤ b.hi.y ∧
  b.lo.z ≤ s.center.z - s.radius ∧ s.center.z + s.radius ≤ b.hi.z

/-- Well-formedness of a built BVH node over the final (post-build) global
index array `g`: it covers `slice g lo hi`; leaves cover at most
`LEAF_SIZE` indices, internal nodes have exactly two children partitioning
the range at the median, and every node's box contains the boxes of all
primitives in its range. -/
inductive Built (spheres : List Sphere) (g : List Nat) : BvhNode → Nat → Nat → Prop where
  | leaf (bbox : Aabb) (lo hi : Nat) :
      lo < hi → hi ≤ g.length → hi - lo ≤ leafSize →
      (∀ i ∈ slice g lo hi, i < spheres.length ∧ boxContains bbox (sphAt spheres i)) →
      Built spheres g (.mk bbox none none lo hi) lo hi
  | node (bbox : Aabb) (l r : BvhNode) (lo mid hi : Nat) :
      lo < mid → mid < hi → mid = lo + (hi - lo) / 2 → leafSize < hi - lo →
      Built spheres g l lo mid → Built spheres g r mid hi →
      (∀ i ∈ slice g lo hi, i < spheres.length ∧ boxContains bbox (sphAt spheres i)) →
      Built spheres g (.mk bbox (some l) (some r) 0 0) lo hi

theorem slice_all (g : List Nat) : slice g 0 g.length = g := by
  simp [slice]

theorem slice_append (g : List Nat) (lo mid hi : Nat) (h1 : lo ≤ mid) (h2 : mid ≤ hi) :
    slice g lo hi = slice g lo mid ++ slice g mid hi := by
  unfold slice
  have key : (g.drop lo).take (hi - lo)
      = (g.drop lo).take ((mid - lo) + (hi - mid)) := by
    congr 1
    omega
  rw [key, List.take_add]
  congr 1
  rw [List.drop_drop]
  congr 2
  omega

theorem slice_length (g : List Nat) (lo hi : Nat) (h1 : lo ≤ hi) (h2 : hi ≤ g.length) :
    (slice g lo hi).length = hi - lo := by
  unfold slice
  rw [List.length_take, List.length_drop]
  omega

theorem boxContains_fromSphere (s : Sphere) : boxContains (Aabb.fromSphere s) s := by
  simp only [boxContains, Aabb.fromSphere, Vec3.sub, Vec3.add]
  norm_num

theorem boxContains_union_left (a b : Aabb) (s : Sphere) (h : boxContains a s) :
    boxContains (a.union b) s := by
  obtain ⟨h1, h2, h3, h4, h5, h6⟩ := h
  simp only [boxContains, Aabb.union, Vec3.vmin, Vec3.vmax]
  refine ⟨?_, ?_, ?_, ?_, ?_, ?_⟩ <;> simp only [le_min_iff, le_max_iff, min_le_iff, max_le_iff]
  · exact Or.inl h1
  · exact Or.inl h2
  · exact Or.inl h3
  · exact Or.inl h4
  · exact Or.inl h5
  · exact Or.inl h6

theorem boxContains_union_right (a b : Aabb) (s : Sphere) (h : boxContains b s) :
    boxContains (a.union b) s := by
  obtain ⟨h1, h2, h3, h4, h5, h6⟩ := h
  simp only [boxContains, Aabb.union, Vec3.vmin, Vec3.vmax]
  refine ⟨?_, ?_, ?_, ?_, ?_, ?_⟩ <;> simp only [le_min_iff, le_max_iff, min_le_iff, max_le_iff]
  · exact Or.inr h1
  · exact Or.inr h2
  · exact Or.inr h3
  · exact Or.inr h4
  · exact Or.inr h5
  · exact Or.inr h6

theorem foldl_union_pres (spheres : List Sphere) (idxs : List Nat) (b : Aabb) (s : Sphere)
    (h : boxContains b s) :
    boxContains
      (idxs.foldl (fun acc j => acc.union (Aabb.fromSphere (sphAt spheres j))) b) s := by
  induction idxs generalizing b with
  | nil => exact h
  | cons j rest ih =>
    exact ih (b.union (Aabb.fromSphere (sphAt spheres j))) (boxContains_union_left _ _ _ h)

theorem foldl_union_mem (spheres : List Sphere) (idxs : List Nat) (b : Aabb) :
    ∀ i ∈ idxs,
      boxContains
        (idxs.foldl (fun acc j => acc.union (Aabb.fromSphere (sphAt spheres j))) b)
        (sphAt spheres i) := by
  induction idxs generalizing b with
  | nil => intro i hi; cases hi
  | cons j rest ih =>
    intro i hi
    rcases List.mem_cons.mp hi with he | hm
    · subst he
      simp only [List.foldl_cons]
      exact foldl_union_pres spheres rest _ _
        (boxContains_union_right _ _ _ (boxContains_fromSphere _))
    · exact ih _ i hm

theorem aabbOfIndices_contains (spheres : List Sphere) (idxs : List Nat) :
    ∀ i ∈ idxs, boxContains (aabbOfIndices spheres idxs) (sphAt spheres i) := by
  intro i hi
  cases idxs with
  | nil => cases hi
  | cons j rest =>
    simp only [aabbOfIndices]
    rcases List.mem_cons.mp hi with he | hm
    · subst he
      exact foldl_union_pres spheres rest _ _ (boxContains_fromSphere _)
    · exact foldl_union_mem spheres rest _ i hm

/-- Every node of a well-formed subtree records enough box information:
its box contains the boxes of all primitives in its range. -/
theorem built_box (spheres : List Sphere) (g : List Nat) (nd : BvhNode) (lo hi : Nat)
    (hb : Built spheres g nd lo hi) :
    ∀ i ∈ slice g lo hi, i < spheres.length ∧ boxContains nd.bbox (sphAt spheres i) := by
  cases hb with
  | leaf bbox lo hi h1 h2 h3 h4 => exact h4
  | node bbox l r lo mid hi h1 h2 h3 h4 h5 h6 h7 => exact h7

theorem build_leaf_eq (fuel : Nat) (idxs : List Nat) (spheres : List Sphere) (offset : Nat)
    (h : idxs.length ≤ leafSize) :
    BvhNode.build (fuel+1) idxs spheres offset =
      (⟨aabbOfIndices spheres idxs, none, none, offset, offset + idxs.length⟩, idxs) := by
  simp only [BvhNode.build]
  rw [if_pos h]

theorem build_node_eq (fuel : Nat) (idxs : List Nat) (spheres : List Sphere) (offset : Nat)
    (h : ¬ idxs.length ≤ leafSize) :
    BvhNode.build (fuel+1) idxs spheres offset =
      (⟨(BvhNode.build fuel ((buildSorted spheres idxs).take ((buildSorted spheres idxs).length / 2)) spheres offset).1.bbox.union
          (BvhNode.build fuel ((buildSorted spheres idxs).drop ((buildSorted spheres idxs).length / 2)) spheres (offset + (buildSorted spheres idxs).length / 2)).1.bbox,
        some (BvhNode.build fuel ((buildSorted spheres idxs).take ((buildSorted spheres idxs).length / 2)) spheres offset).1,
        some (BvhNode.build fuel ((buildSorted spheres idxs).drop ((buildSorted spheres idxs).length / 2)) spheres (offset + (buildSorted spheres idxs).length / 2)).1,
        0, 0⟩,
       (BvhNode.build fuel ((buildSorted spheres idxs).take ((buildSorted spheres idxs).length / 2)) spheres offset).2 ++
         (BvhNode.build fuel ((buildSorted spheres idxs).drop ((buildSorted spheres idxs).length / 2)) spheres (offset + (buildSorted spheres idxs).length / 2)).2) := by
  simp only [BvhNode.build]
  rw [if_neg h]

/-- `BvhNode::build` permutes its index range and produces a well-formed
subtree over any global array whose corresponding slice is the build's
output. -/
theorem build_spec (fuel : Nat) :
    ∀ (idxs : List Nat) (spheres : List Sphere) (offset : Nat),
    idxs ≠ [] → idxs.length ≤ fuel →
    (∀ i ∈ idxs, i < spheres.length) →
    (BvhNode.build fuel idxs spheres offset).2.Perm idxs ∧
    ((BvhNode.build fuel idxs spheres offset).2.length = idxs.length ∧
     ∀ g : List Nat, offset + idxs.length ≤ g.length →
       slice g offset (offset + idxs.length) = (BvhNode.build fuel idxs spheres offset).2 →
       Built spheres g (BvhNode.build fuel idxs spheres offset).1 offset (offset + idxs.length)) := by
  induction fuel with
  | zero =>
    intro idxs spheres offset hne hfuel hidx
    exfalso
    have : idxs.length = 0 := Nat.le_zero.mp hfuel
    exact hne (List.length_eq_zero.mp this)
  | succ fuel ih =>
    intro idxs spheres offset hne hfuel hidx
    by_cases hlen : idxs.length ≤ leafSize
    · rw [build_leaf_eq fuel idxs spheres offset hlen]
      refine ⟨List.Perm.refl _, rfl, ?_⟩
      intro g hg hslice
      have hlo : offset < offset + idxs.length := by
        have : 0 < idxs.length := List.length_pos.mpr hne
        omega
      apply Built.leaf _ _ _ hlo hg (by omega)
      intro i hi
      rw [show slice g offset (offset + idxs.length) = idxs from hslice] at hi
      exact ⟨hidx i hi, aabbOfIndices_contains spheres idxs i hi⟩
    · rw [build_node_eq fuel idxs spheres offset hlen]
      set sorted := buildSorted spheres idxs with hsorted
      have hperm : sorted.Perm idxs := sSort_perm _ idxs
      have hslen : sorted.length = idxs.length := hperm.length_eq
      set mid := sorted.length / 2 with hmid
      have hlen5 : leafSize < idxs.length := not_le.mp hlen
      have hmid2 : 2 ≤ mid := by
        simp only [leafSize] at hlen5
        omega
      have hmidlt : mid < sorted.length := by
        simp only [leafSize] at hlen5
        omega
      have hLlen : (sorted.take mid).length = mid := by
        rw [List.length_take]
        omega
      have hRlen : (sorted.drop mid).length = sorted.length - mid := List.length_drop _ _
      have hLne : sorted.take mid ≠ [] := by
        intro hcon
        have := congrArg List.length hcon
        rw [hLlen] at this
        simp at this
        omega
      have hRne : sorted.drop mid ≠ [] := by
        intro hcon
        have := congrArg List.length hcon
        rw [hRlen] at this
        simp at this
        omega
      have hLfuel : (sorted.take mid).length ≤ fuel := by
        rw [hLlen]
        simp only [leafSize] at hlen5
        omega
      have hRfuel : (sorted.drop mid).length ≤ fuel := by
        rw [hRlen]
        simp only [leafSize] at hlen5
        omega
      have hmemsorted : ∀ i ∈ sorted, i < spheres.length := fun i hi => hidx i (hperm.mem_iff.mp hi)
      have hLidx : ∀ i ∈ sorted.take mid, i < spheres.length :=
        fun i hi => hmemsorted i (List.mem_of_mem_take hi)
      have hRidx : ∀ i ∈ sorted.drop mid, i < spheres.length :=
        fun i hi => hmemsorted i (List.mem_of_mem_drop hi)
      obtain ⟨hLperm, hLlen2, hLbuilt⟩ := ih (sorted.take mid) spheres offset hLne hLfuel hLidx
      obtain ⟨hRperm, hRlen2, hRbuilt⟩ := ih (sorted.drop mid) spheres (offset + mid) hRne hRfuel hRidx
      constructor
      · -- output is a permutation of the input range
        have hcat : ((BvhNode.build fuel (sorted.take mid) spheres offset).2 ++
            (BvhNode.build fuel (sorted.drop mid) spheres (offset + mid)).2).Perm
            (sorted.take mid ++ sorted.drop mid) := List.Perm.append hLperm hRperm
        rw [List.take_append_drop mid sorted] at hcat
        exact hcat.trans hperm
      constructor
      · -- output length
        rw [List.length_append, hLlen2, hRlen2, hLlen, hRlen, ← hslen]
        omega
      · -- well-formedness over any matching global array
        intro g hg hslice
        have hlenfull : offset + idxs.length ≤ g.length := hg
        have hsplit : slice g offset (offset + idxs.length)
            = slice g offset (offset + mid) ++ slice g (offset + mid) (offset + idxs.length) := by
          apply slice_append
          · omega
          · omega
        have hslenL : (slice g offset (offset + mid)).length = mid := by
          rw [slice_length]
          · omega
          · omega
          · omega
        have houtL : (BvhNode.build fuel (sorted.take mid) spheres offset).2.length = mid := by
          rw [hLlen2, hLlen]
        have hinj := List.append_inj (hslice.symm.trans hsplit).symm
          (by rw [houtL, hslenL])
        obtain ⟨hsliceL, hsliceR⟩ := hinj
        have hbl := hLbuilt g (by omega) (by
          rw [show offset + (sorted.take mid).length = offset + mid by rw [hLlen]]
          exact hsliceL)
        have hbr := hRbuilt g (by
          rw [hRlen]
          omega) (by
          rw [show offset + mid + (sorted.drop mid).length = offset + idxs.length by
            rw [hRlen]; omega]
          exact hsliceR)
        rw [show offset + (sorted.take mid).length = offset + mid by rw [hLlen]] at hbl
        rw [show offset + mid + (sorted.drop mid).length = offset + idxs.length by
          rw [hRlen]; omega] at hbr
        apply Built.node _ _ _ _ (offset + mid) _ (by omega) (by omega)
          (by omega) (by simp only [leafSize] at hlen5 ⊢; omega) hbl hbr
        intro i hi
        rw [hsplit] at hi
        rcases List.mem_append.mp hi with hm | hm
        · obtain ⟨hsz, hbox⟩ := built_box spheres g _ _ _ hbl i hm
          exact ⟨hsz, boxContains_union_left _ _ _ (by
            simpa only [BvhNode.bbox] using hbox)⟩
        · obtain ⟨hsz, hbox⟩ := built_box spheres g _ _ _ hbr i hm
          exact ⟨hsz, boxContains_union_right _ _ _ (by
            simpa only [BvhNode.bbox] using hbox)⟩

/-! ## Properties of the closest-hit scan -/

/-- Master lemma about the closest-hit fold, relative to the initial upper
bound `T0`: the accumulator invariant, soundness (any result is an actual
sphere hit on the full window, unchanged), minimality (the result's `t` is
below every sphere hit on the full window), and the all-miss case. -/
theorem scanGo_spec (spheres : List Sphere) (ray : Ray) (tMin T0 : ℚ)
    (hd : ray.direction ≠ Vec3.zero) :
    ∀ (ids : List Nat) (acc : Option Hit × ℚ),
    (acc.1 = none ∧ acc.2 = T0 ∨ ∃ hp, acc.1 = some hp ∧ acc.2 = hp.t ∧ hp.t ≤ T0) →
    ((scanGo spheres ray tMin ids acc).1 = none ∧ (scanGo spheres ray tMin ids acc).2 = T0 ∨
      ∃ hp, (scanGo spheres ray tMin ids acc).1 = some hp ∧
        (scanGo spheres ray tMin ids acc).2 = hp.t ∧ hp.t ≤ T0) ∧
    (∀ h, (scanGo spheres ray tMin ids acc).1 = some h →
      acc.1 = some h ∨ ∃ i ∈ ids, (sphAt spheres i).hit ray tMin T0 = some h) ∧
    (∀ h, (scanGo spheres ray tMin ids acc).1 = some h →
      h.t ≤ acc.2 ∧
      (∀ hp, acc.1 = some hp → h.t ≤ hp.t) ∧
      (∀ i ∈ ids, ∀ h', (sphAt spheres i).hit ray tMin T0 = some h' → h.t ≤ h'.t)) ∧
    ((scanGo spheres ray tMin ids acc).1 = none →
      acc.1 = none ∧ ∀ i ∈ ids, (sphAt spheres i).hit ray tMin acc.2 = none) := by
  have hqa : ∀ s : Sphere, 0 < s.qa ray := fun s => Vec3.dot_self_pos _ hd
  intro ids
  induction ids with
  | nil =>
    intro acc hinv
    refine ⟨hinv, ?_, ?_, ?_⟩
    · intro h hh
      exact Or.inl hh
    · intro h hh
      refine ⟨?_, ?_, ?_⟩
      · rcases hinv with ⟨h1, _⟩ | ⟨hp, h1, h2, _⟩
        · simp only [scanGo, List.foldl_nil] at hh
          rw [h1] at hh
          cases hh
        · simp only [scanGo, List.foldl_nil] at hh
          rw [h1] at hh
          injection hh with hh
          rw [h2, hh]
      · intro hp hhp
        simp only [scanGo, List.foldl_nil] at hh
        rw [hhp] at hh
        injection hh with hh
        rw [hh]
      · intro i hi
        cases hi
    · intro hcon
      rcases hinv with ⟨h1, _⟩ | ⟨hp, h1, _, _⟩
      · exact ⟨h1, fun i hi => absurd hi (List.not_mem_nil i)⟩
      · exfalso
        simp only [scanGo, List.foldl_nil] at hcon
        rw [h1] at hcon
        cases hcon
  | cons i rest ih =>
    intro acc hinv
    have hacc2 : acc.2 ≤ T0 := by
      rcases hinv with ⟨_, h2⟩ | ⟨hp, _, h2, h3⟩
      · rw [h2]
      · rw [h2]; exact h3
    have hgo : scanGo spheres ray tMin (i :: rest) acc
        = scanGo spheres ray tMin rest (scanStep spheres ray tMin acc i) := by
      simp only [scanGo, List.foldl_cons]
    rcases hstep : (sphAt spheres i).hit ray tMin acc.2 with _ | h1
    · -- this sphere misses the current window: accumulator unchanged
      have hstepeq : scanStep spheres ray tMin acc i = acc := by
        unfold scanStep
        rw [hstep]
      rw [hgo, hstepeq]
      obtain ⟨jinv, jsound, jmin, jnone⟩ := ih acc hinv
      refine ⟨jinv, ?_, ?_, ?_⟩
      · intro h hh
        rcases jsound h hh with hc | ⟨j, hj, hhit⟩
        · exact Or.inl hc
        · exact Or.inr ⟨j, List.mem_cons_of_mem i hj, hhit⟩
      · intro h hh
        obtain ⟨m1, m2, m3⟩ := jmin h hh
        refine ⟨m1, m2, ?_⟩
        intro j hj h' hh'
        rcases List.mem_cons.mp hj with he | hm
        · -- the skipped sphere: its full-window hit must lie beyond acc.2
          subst he
          by_contra hlt
          push_neg at hlt
          have hle : h'.t ≤ acc.2 := le_of_lt (lt_of_lt_of_le hlt m1)
          have := Sphere.hit_narrow _ _ _ _ _ _ hh' hle hacc2
          rw [hstep] at this
          cases this
        · exact m3 j hm h' hh'
      · intro hh
        obtain ⟨n1, n2⟩ := jnone hh
        exact ⟨n1, fun j hj => by
          rcases List.mem_cons.mp hj with he | hm
          · subst he; exact hstep
          · exact n2 j hm⟩
    · -- this sphere hits: the window narrows to h1.t
      have hstepeq : scanStep spheres ray tMin acc i = (some h1, h1.t) := by
        unfold scanStep
        rw [hstep]
      have hmem := Sphere.hit_t_mem _ _ _ _ _ hstep
      have hw : (sphAt spheres i).hit ray tMin T0 = some h1 :=
        Sphere.hit_widen _ _ _ _ _ _ (hqa _) hstep hacc2
      have hinv' : (some h1, h1.t).1 = none ∧ ((some h1, h1.t) : Option Hit × ℚ).2 = T0 ∨
          ∃ hp, (some h1, h1.t).1 = some hp ∧ ((some h1, h1.t) : Option Hit × ℚ).2 = hp.t ∧ hp.t ≤ T0 :=
        Or.inr ⟨h1, rfl, rfl, le_trans hmem.2 hacc2⟩
      rw [hgo, hstepeq]
      obtain ⟨jinv, jsound, jmin, jnone⟩ := ih (some h1, h1.t) hinv'
      refine ⟨jinv, ?_, ?_, ?_⟩
      · intro h hh
        rcases jsound h hh with hc | ⟨j, hj, hhit⟩
        · injection hc with hc
          exact Or.inr ⟨i, List.mem_cons_self i rest, hc ▸ hw⟩
        · exact Or.inr ⟨j, List.mem_cons_of_mem i hj, hhit⟩
      · intro h hh
        obtain ⟨m1, m2, m3⟩ := jmin h hh
        have hht1 : h.t ≤ h1.t := m2 h1 rfl
        refine ⟨le_trans hht1 hmem.2, ?_, ?_⟩
        · intro hp hhp
          rcases hinv with ⟨h1', _⟩ | ⟨hp', e1, e2, _⟩
          · rw [h1'] at hhp
            cases hhp
          · rw [e1] at hhp
            injection hhp with hhp
            subst hhp
            rw [← e2]
            exact le_trans hht1 hmem.2
        · intro j hj h' hh'
          rcases List.mem_cons.mp hj with he | hm
          · subst he
            rw [hw] at hh'
            injection hh' with hh'
            rw [← hh']
            exact hht1
          · exact m3 j hm h' hh'
      · intro hh
        obtain ⟨n1, _⟩ := jnone hh
        cases n1

/-! ## `BvhNode::hit` against its covered primitive range -/

@[simp] theorem BvhNode.bbox_mk (b : Aabb) (l r : Option BvhNode) (s e : Nat) :
    (BvhNode.mk b l r s e).bbox = b := rfl

@[simp] theorem BvhNode.left_mk (b : Aabb) (l r : Option BvhNode) (s e : Nat) :
    (BvhNode.mk b l r s e).left = l := rfl

@[simp] theorem BvhNode.right_mk (b : Aabb) (l r : Option BvhNode) (s e : Nat) :
    (BvhNode.mk b l r s e).right = r := rfl

@[simp] theorem BvhNode.sidx_mk (b : Aabb) (l r : Option BvhNode) (s e : Nat) :
    (BvhNode.mk b l r s e).sidx = s := rfl

@[simp] theorem BvhNode.eidx_mk (b : Aabb) (l r : Option BvhNode) (s e : Nat) :
    (BvhNode.mk b l r s e).eidx = e := rfl

@[simp] theorem optOr_some (x : Hit) (b : Option Hit) : optOr (some x) b = some x := rfl

@[simp] theorem optOr_none (b : Option Hit) : optOr none b = b := rfl

theorem sphAt_mem (spheres : List Sphere) (i : Nat) (h : i < spheres.length) :
    sphAt spheres i ∈ spheres := by
  unfold sphAt
  rw [List.getD_eq_getElem spheres _ h]
  exact List.getElem_mem h

theorem slice_def (g : List Nat) (lo hi : Nat) :
    (g.drop lo).take (hi - lo) = slice g lo hi := rfl

theorem built_mem_left (g : List Nat) (lo mid hi : Nat) (h1 : lo ≤ mid) (h2 : mid ≤ hi) :
    ∀ i ∈ slice g lo mid, i ∈ slice g lo hi := by
  intro i him
  rw [slice_append g lo mid hi h1 h2]
  exact List.mem_append_left _ him

theorem built_mem_right (g : List Nat) (lo mid hi : Nat) (h1 : lo ≤ mid) (h2 : mid ≤ hi) :
    ∀ i ∈ slice g mid hi, i ∈ slice g lo hi := by
  intro i him
  rw [slice_append g lo mid hi h1 h2]
  exact List.mem_append_right _ him

/-- If every primitive in the node's range misses the window, the node
query returns `none` (for any fuel). -/
theorem built_hit_none (spheres : List Sphere) (g : List Nat) (ray : Ray) (tMin : ℚ)
    (hd : ray.direction ≠ Vec3.zero)
    (nd : BvhNode) (lo hi : Nat) (hB : Built spheres g nd lo hi) :
    ∀ fuel T, (∀ i ∈ slice g lo hi, (sphAt spheres i).hit ray tMin T = none) →
    BvhNode.hitFuel fuel nd ray tMin T spheres g = none := by
  induction hB with
  | leaf bbox lo hi hlo hhi hsz hmem =>
    intro fuel T hmiss
    cases fuel with
    | zero => rfl
    | succ fuel =>
      simp only [BvhNode.hitFuel, BvhNode.bbox_mk, BvhNode.left_mk, BvhNode.right_mk,
        BvhNode.sidx_mk, BvhNode.eidx_mk, Option.isNone_none, slice_def]
      split
      · rfl
      · rw [if_pos (by simp)]
        rcases hres : scanIds spheres (slice g lo hi) ray tMin T with _ | h
        · rfl
        · exfalso
          obtain ⟨_, hsound, _, _⟩ := scanGo_spec spheres ray tMin T hd (slice g lo hi)
            ((none : Option Hit), T) (Or.inl ⟨rfl, rfl⟩)
          rcases hsound h hres with hc | ⟨j, hj, hhit⟩
          · cases hc
          · rw [hmiss j hj] at hhit
            cases hhit
  | node bbox l r lo mid hi h1 h2 h3 h4 hbl hbr hmem ihl ihr =>
    intro fuel T hmiss
    cases fuel with
    | zero => rfl
    | succ fuel =>
      simp only [BvhNode.hitFuel, BvhNode.bbox_mk, BvhNode.left_mk, BvhNode.right_mk,
        Option.isNone_some]
      split
      · rfl
      · rw [if_neg (by simp)]
        have hL := ihl fuel T
          (fun i him => hmiss i (built_mem_left g lo mid hi (le_of_lt h1) (le_of_lt h2) i him))
        have hR := ihr fuel T
          (fun i him => hmiss i (built_mem_right g lo mid hi (le_of_lt h1) (le_of_lt h2) i him))
        rw [hL]
        show optOr (BvhNode.hitFuel fuel r ray tMin T spheres g) none = none
        rw [hR]
        rfl

/-- Soundness: whatever the node query returns is an actual hit of some
primitive in its range, on the full query window, unchanged. -/
theorem built_hit_sound (spheres : List Sphere) (g : List Nat) (ray : Ray) (tMin : ℚ)
    (hd : ray.direction ≠ Vec3.zero)
    (nd : BvhNode) (lo hi : Nat) (hB : Built spheres g nd lo hi) :
    ∀ fuel T h, BvhNode.hitFuel fuel nd ray tMin T spheres g = some h →
    ∃ i ∈ slice g lo hi, (sphAt spheres i).hit ray tMin T = some h := by
  have hqa : ∀ s : Sphere, 0 < s.qa ray := fun s => Vec3.dot_self_pos _ hd
  induction hB with
  | leaf bbox lo hi hlo hhi hsz hmem =>
    intro fuel T h hh
    cases fuel with
    | zero => cases hh
    | succ fuel =>
      simp only [BvhNode.hitFuel, BvhNode.bbox_mk, BvhNode.left_mk, BvhNode.right_mk,
        BvhNode.sidx_mk, BvhNode.eidx_mk, slice_def] at hh
      split at hh
      · cases hh
      · rw [if_pos (by simp)] at hh
        obtain ⟨_, hsound, _, _⟩ := scanGo_spec spheres ray tMin T hd (slice g lo hi)
          ((none : Option Hit), T) (Or.inl ⟨rfl, rfl⟩)
        rcases hsound h hh with hc | hok
        · cases hc
        · exact hok
  | node bbox l r lo mid hi h1 h2 h3 h4 hbl hbr hmem ihl ihr =>
    intro fuel T h hh
    cases fuel with
    | zero => cases hh
    | succ fuel =>
      simp only [BvhNode.hitFuel, BvhNode.bbox_mk, BvhNode.left_mk, BvhNode.right_mk] at hh
      split at hh
      · cases hh
      · rw [if_neg (by simp)] at hh
        rcases hlres : BvhNode.hitFuel fuel l ray tMin T spheres g with _ | hl
        · rw [hlres] at hh
          have hh' : optOr (BvhNode.hitFuel fuel r ray tMin T spheres g) none = some h := hh
          rcases hrres : BvhNode.hitFuel fuel r ray tMin T spheres g with _ | hr
          · rw [hrres] at hh'
            cases hh'
          · rw [hrres] at hh'
            rw [optOr_some] at hh'
            injection hh' with hh'
            subst hh'
            obtain ⟨j, hj, hhit⟩ := ihr fuel T hr hrres
            exact ⟨j, built_mem_right g lo mid hi (le_of_lt h1) (le_of_lt h2) j hj, hhit⟩
        · rw [hlres] at hh
          have hh' : optOr (BvhNode.hitFuel fuel r ray tMin hl.t spheres g) (some hl) = some h := hh
          obtain ⟨jL, hjL, hhitL⟩ := ihl fuel T hl hlres
          have hlT : hl.t ≤ T := (Sphere.hit_t_mem _ _ _ _ _ hhitL).2
          rcases hrres : BvhNode.hitFuel fuel r ray tMin hl.t spheres g with _ | hr
          · rw [hrres] at hh'
            rw [optOr_none] at hh'
            injection hh' with hh'
            subst hh'
            exact ⟨jL, built_mem_left g lo mid hi (le_of_lt h1) (le_of_lt h2) jL hjL, hhitL⟩
          · rw [hrres] at hh'
            rw [optOr_some] at hh'
            injection hh' with hh'
            subst hh'
            obtain ⟨j, hj, hhit⟩ := ihr fuel hl.t hr hrres
            refine ⟨j, built_mem_right g lo mid hi (le_of_lt h1) (le_of_lt h2) j hj, ?_⟩
            exact Sphere.hit_widen _ _ _ _ _ _ (hqa _) hhit hlT

/-- Completeness and minimality: if some primitive of the node's range has
the least hit parameter over the whole range, strictly inside the query
window, then the node query finds a hit at exactly that parameter (given
positive radii, so that slab tests cannot degenerate). -/
theorem built_hit_min (spheres : List Sphere) (g : List Nat) (ray : Ray) (tMin : ℚ)
    (hd : ray.direction ≠ Vec3.zero) (hrad : ∀ s ∈ spheres, 0 < s.radius)
    (nd : BvhNode) (lo hi : Nat) (hB : Built spheres g nd lo hi) :
    ∀ fuel T i0 h0, hi - lo ≤ fuel → i0 ∈ slice g lo hi →
    (sphAt spheres i0).hit ray tMin T = some h0 →
    (∀ j ∈ slice g lo hi, ∀ h', (sphAt spheres j).hit ray tMin T = some h' → h0.t ≤ h'.t) →
    tMin < h0.t → h0.t < T →
    ∃ h, BvhNode.hitFuel fuel nd ray tMin T spheres g = some h ∧ h.t = h0.t := by
  have hqa : ∀ s : Sphere, 0 < s.qa ray := fun s => Vec3.dot_self_pos _ hd
  induction hB with
  | leaf bbox lo hi hlo hhi hsz hmem =>
    intro fuel T i0 h0 hfuel hi0 hhit0 hmin ht1 ht2
    have hszpos : 1 ≤ hi - lo := by omega
    cases fuel with
    | zero => omega
    | succ fuel =>
      obtain ⟨hi0len, hi0box⟩ := hmem i0 hi0
      have hboxpass : bbox.hit ray tMin T = true := by
        obtain ⟨b1, b2, b3, b4, b5, b6⟩ := hi0box
        exact Aabb.hit_of_ball bbox ray tMin T h0.t (sphAt spheres i0).center
          (sphAt spheres i0).radius (hrad _ (sphAt_mem spheres i0 hi0len))
          b1 b2 b3 b4 b5 b6
          (Sphere.hit_point_in_ball _ _ _ _ _ (hqa _) hhit0) ht1 ht2
      simp only [BvhNode.hitFuel, BvhNode.bbox_mk, BvhNode.left_mk, BvhNode.right_mk,
        BvhNode.sidx_mk, BvhNode.eidx_mk, slice_def]
      rw [if_neg (by rw [hboxpass]; simp), if_pos (by simp)]
      obtain ⟨_, hsound, hminres, hnone⟩ := scanGo_spec spheres ray tMin T hd (slice g lo hi)
        ((none : Option Hit), T) (Or.inl ⟨rfl, rfl⟩)
      rcases hres : scanIds spheres (slice g lo hi) ray tMin T with _ | h
      · exfalso
        obtain ⟨_, hall⟩ := hnone hres
        rw [hall i0 hi0] at hhit0
        cases hhit0
      · refine ⟨h, rfl, ?_⟩
        obtain ⟨_, _, hle⟩ := hminres h hres
        have hge : h0.t ≤ h.t := by
          rcases hsound h hres with hc | ⟨j, hj, hhit⟩
          · cases hc
          · exact hmin j hj h hhit
        exact le_antisymm (hle i0 hi0 h0 hhit0) hge |>.symm ▸ rfl
  | node bbox l r lo mid hi h1 h2 h3 h4 hbl hbr hmem ihl ihr =>
    intro fuel T i0 h0 hfuel hi0 hhit0 hmin ht1 ht2
    cases fuel with
    | zero => omega
    | succ fuel =>
      obtain ⟨hi0len, hi0box⟩ := hmem i0 hi0
      have hboxpass : bbox.hit ray tMin T = true := by
        obtain ⟨b1, b2, b3, b4, b5, b6⟩ := hi0box
        exact Aabb.hit_of_ball bbox ray tMin T h0.t (sphAt spheres i0).center
          (sphAt spheres i0).radius (hrad _ (sphAt_mem spheres i0 hi0len))
          b1 b2 b3 b4 b5 b6
          (Sphere.hit_point_in_ball _ _ _ _ _ (hqa _) hhit0) ht1 ht2
      have hfl : mid - lo ≤ fuel := by omega
      have hfr : hi - mid ≤ fuel := by omega
      have hsplit := slice_append g lo mid hi (le_of_lt h1) (le_of_lt h2)
      simp only [BvhNode.hitFuel, BvhNode.bbox_mk, BvhNode.left_mk, BvhNode.right_mk]
      rw [if_neg (by rw [hboxpass]; simp), if_neg (by simp)]
      rcases hlres : BvhNode.hitFuel fuel l ray tMin T spheres g with _ | hl
      · -- left subtree returns nothing: the minimum must be on the right
        have hi0R : i0 ∈ slice g mid hi := by
          rw [hsplit] at hi0
          rcases List.mem_append.mp hi0 with hm | hm
          · exfalso
            obtain ⟨h, hh, hht⟩ := ihl fuel T i0 h0 hfl hm hhit0
              (fun j hj h' hh' =>
                hmin j (built_mem_left g lo mid hi (le_of_lt h1) (le_of_lt h2) j hj) h' hh')
              ht1 ht2
            rw [hlres] at hh
            cases hh
          · exact hm
        obtain ⟨h, hh, hht⟩ := ihr fuel T i0 h0 hfr hi0R hhit0
          (fun j hj h' hh' =>
            hmin j (built_mem_right g lo mid hi (le_of_lt h1) (le_of_lt h2) j hj) h' hh')
          ht1 ht2
        refine ⟨h, ?_, hht⟩
        show optOr (BvhNode.hitFuel fuel r ray tMin T spheres g) none = some h
        rw [hh]
        rfl
      · -- left subtree returned a hit hl
        obtain ⟨jL, hjL, hhitL⟩ := built_hit_sound spheres g ray tMin hd l lo mid hbl fuel T hl hlres
        have hlT : hl.t ≤ T := (Sphere.hit_t_mem _ _ _ _ _ hhitL).2
        have hl0 : h0.t ≤ hl.t :=
          hmin jL (built_mem_left g lo mid hi (le_of_lt h1) (le_of_lt h2) jL hjL) hl hhitL
        rcases eq_or_lt_of_le hl0 with heq | hlt
        · -- the left hit already achieves the minimum
          rcases hrres : BvhNode.hitFuel fuel r ray tMin hl.t spheres g with _ | hr
          · exact ⟨hl, rfl, heq.symm⟩
          · obtain ⟨jR, hjR, hhitR⟩ :=
              built_hit_sound spheres g ray tMin hd r mid hi hbr fuel hl.t hr hrres
            have hrW : (sphAt spheres jR).hit ray tMin T = some hr :=
              Sphere.hit_widen _ _ _ _ _ _ (hqa _) hhitR hlT
            have hr0 : h0.t ≤ hr.t :=
              hmin jR (built_mem_right g lo mid hi (le_of_lt h1) (le_of_lt h2) jR hjR) hr hrW
            have hrT : hr.t ≤ hl.t := (Sphere.hit_t_mem _ _ _ _ _ hhitR).2
            exact ⟨hr, rfl, le_antisymm (by rw [← heq] at hrT; exact hrT) hr0⟩
        · -- strictly smaller minimum: it lies in the right subtree
          have hi0R : i0 ∈ slice g mid hi := by
            rw [hsplit] at hi0
            rcases List.mem_append.mp hi0 with hm | hm
            · exfalso
              obtain ⟨h, hh, hht⟩ := ihl fuel T i0 h0 hfl hm hhit0
                (fun j hj h' hh' =>
                  hmin j (built_mem_left g lo mid hi (le_of_lt h1) (le_of_lt h2) j hj) h' hh')
                ht1 ht2
              rw [hlres] at hh
              injection hh with hh
              rw [← hh] at hht
              exact absurd hht (ne_of_gt hlt)
            · exact hm
          have hnarrow0 : (sphAt spheres i0).hit ray tMin hl.t = some h0 :=
            Sphere.hit_narrow _ _ _ _ _ _ hhit0 (le_of_lt hlt) hlT
          obtain ⟨h, hh, hht⟩ := ihr fuel hl.t i0 h0 hfr hi0R hnarrow0
            (fun j hj h' hh' =>
              hmin j (built_mem_right g lo mid hi (le_of_lt h1) (le_of_lt h2) j hj) h'
                (Sphere.hit_widen _ _ _ _ _ _ (hqa _) hh' hlT))
            ht1 hlt
          refine ⟨h, ?_, hht⟩
          show optOr (BvhNode.hitFuel fuel r ray tMin hl.t spheres g) (some hl) = some h
          rw [hh]
          rfl

/-! ## `Bvh::new` / `Bvh::hit` versus the brute-force scan -/

theorem map_sphAt_range (spheres : List Sphere) :
    List.map (fun i => sphAt spheres i) (List.range spheres.length) = spheres := by
  apply List.ext_getElem
  · simp
  · intro k h1 h2
    simp only [List.getElem_map, List.getElem_range, sphAt]
    rw [List.getD_eq_getElem spheres _ h2]

/-- The test's brute-force loop over sphere values is the id-indexed scan
over `0..n`. -/
theorem bruteHit_eq_scan (ray : Ray) (spheres : List Sphere) (tMin tMax : ℚ) :
    bruteHit ray spheres tMin tMax
      = scanIds spheres (List.range spheres.length) ray tMin tMax := by
  unfold bruteHit scanIds scanGo
  conv_lhs =>
    rw [show spheres = List.map (fun i => sphAt spheres i) (List.range spheres.length) from
      (map_sphAt_range spheres).symm]
  rw [List.foldl_map]
  rfl

theorem bvhNew_empty_hit (spheres : List Sphere) (h : spheres = []) (ray : Ray) (tMin tMax : ℚ) :
    (Bvh.new spheres).hit ray tMin tMax = none := by
  subst h
  rfl

theorem bvhNew_eq (spheres : List Sphere) (hne : spheres ≠ []) :
    Bvh.new spheres =
      ⟨spheres, (BvhNode.build spheres.length (List.range spheres.length) spheres 0).2,
        (BvhNode.build spheres.length (List.range spheres.length) spheres 0).1⟩ := by
  have hn : 0 < spheres.length := List.length_pos.mpr hne
  unfold Bvh.new
  rw [if_neg (by simp only [List.isEmpty_eq_true, List.range_eq_nil]; omega)]
  simp only [List.length_range]

theorem bvhNew_spec (spheres : List Sphere) (hne : spheres ≠ []) :
    (Bvh.new spheres).spheres = spheres ∧
    (Bvh.new spheres).indices.Perm (List.range spheres.length) ∧
    (Bvh.new spheres).indices.length = spheres.length ∧
    Built spheres (Bvh.new spheres).indices (Bvh.new spheres).root 0 spheres.length := by
  have hn : 0 < spheres.length := List.length_pos.mpr hne
  obtain ⟨hperm, hlen, hbuilt⟩ := build_spec spheres.length
    (List.range spheres.length) spheres 0
    (by simp only [ne_eq, List.range_eq_nil]; omega)
    (by rw [List.length_range])
    (fun i hi => List.mem_range.mp hi)
  rw [List.length_range] at hlen
  have hb := hbuilt (BvhNode.build spheres.length (List.range spheres.length) spheres 0).2
    (by rw [hlen]; simp [List.length_range])
    (by
      have hall := slice_all (BvhNode.build spheres.length (List.range spheres.length) spheres 0).2
      rw [hlen] at hall
      simpa [List.length_range] using hall)
  rw [bvhNew_eq spheres hne]
  exact ⟨rfl, hperm, hlen, by simpa [List.length_range] using hb⟩

/-- The non-empty `Bvh::hit` is the fuelled root query. -/
theorem bvhNew_hit_eq (spheres : List Sphere) (hne : spheres ≠ []) (ray : Ray) (tMin tMax : ℚ) :
    (Bvh.new spheres).hit ray tMin tMax
      = BvhNode.hitFuel ((Bvh.new spheres).indices.length + 1) (Bvh.new spheres).root
          ray tMin tMax spheres (Bvh.new spheres).indices := by
  obtain ⟨hsph, _, hlen, _⟩ := bvhNew_spec spheres hne
  unfold Bvh.hit
  rw [if_neg]
  · rw [hsph]
  · simp only [List.isEmpty_eq_true]
    intro hcon
    rw [hcon] at hlen
    simp at hlen
    exact hne (List.length_eq_zero.mp hlen.symm)

/-- Facts about the brute-force scan, packaged: the all-miss case, and
soundness plus minimality of a returned hit, all over window
`[tMin, tMax]`. -/
theorem bruteHit_spec (ray : Ray) (spheres : List Sphere) (tMin tMax : ℚ)
    (hd : ray.direction ≠ Vec3.zero) :
    (bruteHit ray spheres tMin tMax = none →
      ∀ i ∈ List.range spheres.length, (sphAt spheres i).hit ray tMin tMax = none) ∧
    (∀ h, bruteHit ray spheres tMin tMax = some h →
      (∃ i ∈ List.range spheres.length, (sphAt spheres i).hit ray tMin tMax = some h) ∧
      (∀ j ∈ List.range spheres.length, ∀ h',
        (sphAt spheres j).hit ray tMin tMax = some h' → h.t ≤ h'.t)) := by
  obtain ⟨_, hsound, hmin, hnone⟩ := scanGo_spec spheres ray tMin tMax hd
    (List.range spheres.length) ((none : Option Hit), tMax) (Or.inl ⟨rfl, rfl⟩)
  rw [bruteHit_eq_scan]
  constructor
  · intro hh
    exact (hnone hh).2
  · intro h hh
    constructor
    · rcases hsound h hh with hc | hok
      · cases hc
      · exact hok
    · exact (hmin h hh).2.2

/-- C1 (amended): the BVH query agrees with the brute-force scan.
Part 1: if brute force finds nothing, the BVH returns `none`.
Part 2: any BVH hit is witnessed by a brute-force hit at `t` no larger.
Part 3: when the brute-force nearest hit lies strictly inside
`(tMin, tMax)`, the BVH returns a hit at exactly the same `t`. -/
theorem bvh_hit_matches_bruteforce (spheres : List Sphere) (ray : Ray) (tMin tMax : ℚ)
    (hrad : ∀ s ∈ spheres, 0 < s.radius) (hd : ray.direction ≠ Vec3.zero) :
    (bruteHit ray spheres tMin tMax = none → (Bvh.new spheres).hit ray tMin tMax = none) ∧
    (∀ h2, (Bvh.new spheres).hit ray tMin tMax = some h2 →
      ∃ h, bruteHit ray spheres tMin tMax = some h ∧ h.t ≤ h2.t) ∧
    (∀ h, bruteHit ray spheres tMin tMax = some h → tMin < h.t → h.t < tMax →
      ∃ h2, (Bvh.new spheres).hit ray tMin tMax = some h2 ∧ h2.t = h.t) := by
  by_cases hne : spheres = []
  · refine ⟨fun _ => bvhNew_empty_hit spheres hne ray tMin tMax, ?_, ?_⟩
    · intro h2 hh
      rw [bvhNew_empty_hit spheres hne ray tMin tMax] at hh
      cases hh
    · intro h hh
      subst hne
      rw [show bruteHit ray [] tMin tMax = none from rfl] at hh
      cases hh
  · obtain ⟨hsph, hperm, hlen, hbuilt⟩ := bvhNew_spec spheres hne
    obtain ⟨hbnone, hbsome⟩ := bruteHit_spec ray spheres tMin tMax hd
    have hsliceg : slice (Bvh.new spheres).indices 0 spheres.length = (Bvh.new spheres).indices := by
      have := slice_all (Bvh.new spheres).indices
      rw [hlen] at this
      exact this
    refine ⟨?_, ?_, ?_⟩
    · -- nothing to hit
      intro hh
      rw [bvhNew_hit_eq spheres hne ray tMin tMax]
      apply built_hit_none spheres _ ray tMin hd _ _ _ hbuilt
      intro i hi
      rw [hsliceg] at hi
      exact hbnone hh i (hperm.mem_iff.mp hi)
    · -- BVH hits are real hits, so brute force can only do better
      intro h2 hh
      rw [bvhNew_hit_eq spheres hne ray tMin tMax] at hh
      obtain ⟨i, hi, hhit⟩ := built_hit_sound spheres _ ray tMin hd _ _ _ hbuilt _ tMax h2 hh
      rw [hsliceg] at hi
      have hirange : i ∈ List.range spheres.length := hperm.mem_iff.mp hi
      rcases hbr : bruteHit ray spheres tMin tMax with _ | hbh
      · exfalso
        rw [hbnone hbr i hirange] at hhit
        cases hhit
      · obtain ⟨_, hminb⟩ := hbsome hbh hbr
        exact ⟨hbh, rfl, hminb i hirange h2 hhit⟩
    · -- the brute-force nearest hit strictly inside the window is found
      intro h hh ht1 ht2
      obtain ⟨⟨i, hi, hhit⟩, hminb⟩ := hbsome h hh
      rw [bvhNew_hit_eq spheres hne ray tMin tMax]
      apply built_hit_min spheres _ ray tMin hd hrad _ _ _ hbuilt _ tMax i h
        (by rw [hlen]; omega) (by rw [hsliceg]; exact hperm.mem_iff.mpr hi) hhit
        (fun j hj h' hh' => hminb j (by rw [hsliceg] at hj; exact hperm.mem_iff.mp hj) h' hh')
        ht1 ht2

/-! ## Concrete inputs for the BVH claims -/

/-- Unit sphere at the origin. -/
def cexSphere : Sphere := ⟨⟨0, 0, 0⟩, 1, ⟨1, 1, 1⟩, ⟨0, 0, 0⟩⟩

/-- Axis ray entering the unit sphere at parameter 1. -/
def cexRay : Ray := ⟨⟨-2, 0, 0⟩, ⟨1, 0, 0⟩⟩

/-- The hit record `Sphere::hit` produces for `cexSphere`/`cexRay`. -/
def cexHit : Hit := ⟨1, ⟨-1, 0, 0⟩, ⟨-1, 0, 0⟩, ⟨1, 1, 1⟩, ⟨0, 0, 0⟩⟩

theorem cex_sphere_hit_wide : Sphere.hit cexSphere cexRay (1/2) 10 = some cexHit := by
  norm_num [Sphere.hit, Sphere.disc, Sphere.qa, Sphere.halfB, Sphere.qc, Sphere.oc,
    Sphere.root1, Sphere.root2, Sphere.mkHit, Ray.at, Vec3.dot, Vec3.sub, Vec3.add,
    Vec3.smul, Vec3.sdiv, cexSphere, cexRay, cexHit, sqrtQ_one]

theorem cex_sphere_hit_boundary : Sphere.hit cexSphere cexRay 1 1 = some cexHit := by
  norm_num [Sphere.hit, Sphere.disc, Sphere.qa, Sphere.halfB, Sphere.qc, Sphere.oc,
    Sphere.root1, Sphere.root2, Sphere.mkHit, Ray.at, Vec3.dot, Vec3.sub, Vec3.add,
    Vec3.smul, Vec3.sdiv, cexSphere, cexRay, cexHit, sqrtQ_one]

theorem cex_brute_wide : bruteHit cexRay [cexSphere] (1/2) 10 = some cexHit := by
  norm_num [bruteHit, List.foldl_cons, List.foldl_nil, cex_sphere_hit_wide]

theorem cex_brute_boundary : bruteHit cexRay [cexSphere] 1 1 = some cexHit := by
  norm_num [bruteHit, List.foldl_cons, List.foldl_nil, cex_sphere_hit_boundary]

theorem cex_bvh_boundary_none : (Bvh.new [cexSphere]).hit cexRay 1 1 = none := by
  norm_num [Bvh.new, Bvh.hit, BvhNode.build, BvhNode.hitFuel, Aabb.hit, hitAxis,
    aabbOfIndices, Aabb.fromSphere, sphAt, leafSize, List.range, List.range.loop,
    cexSphere, cexRay, Vec3.sub, Vec3.add, Vec3.dot, BvhNode.bbox_mk, BvhNode.left_mk,
    BvhNode.right_mk, BvhNode.sidx_mk, BvhNode.eidx_mk]

/-- C1 counterexample: with the degenerate (but allowed, `tMin ≤ tMax`)
window `[1, 1]`, brute force reports the hit at `t = 1` while `Bvh::hit`
returns `none` — the strict slab test `t_max > t_min` rejects the window.
This refutes the claim as stated for every `tMin ≤ tMax`. -/
theorem bvh_brute_disagree_at_boundary :
    (bruteHit cexRay [cexSphere] 1 1 = some cexHit ∧ cexHit.t = 1) ∧
    (Bvh.new [cexSphere]).hit cexRay 1 1 = none ∧ ((1 : ℚ) ≤ 1) :=
  ⟨⟨cex_brute_boundary, rfl⟩, cex_bvh_boundary_none, le_refl 1⟩

/-- C1 witness: the amended theorem applied at the concrete one-sphere
scene with the window `[1/2, 10]`, whose brute-force nearest hit `t = 1`
lies strictly inside. -/
theorem bvh_hit_matches_bruteforce_witness :
    (∀ s ∈ [cexSphere], 0 < s.radius) ∧ cexRay.direction ≠ Vec3.zero ∧
    ∃ h2, (Bvh.new [cexSphere]).hit cexRay (1/2) 10 = some h2 ∧ h2.t = 1 := by
  have hrad : ∀ s ∈ [cexSphere], 0 < s.radius := by
    intro s hs
    simp only [List.mem_singleton] at hs
    subst hs
    norm_num [cexSphere]
  have hd : cexRay.direction ≠ Vec3.zero := by
    simp only [cexRay, Vec3.zero, ne_eq, Vec3.mk.injEq]
    norm_num
  refine ⟨hrad, hd, ?_⟩
  obtain ⟨h2, hh2, hht⟩ :=
    (bvh_hit_matches_bruteforce [cexSphere] cexRay (1/2) 10 hrad hd).2.2 cexHit
      cex_brute_wide (by norm_num [cexHit]) (by norm_num [cexHit])
  exact ⟨h2, hh2, by rw [hht]; rfl⟩

/-- C9: the BVH built over any non-empty sphere list is well-formed: its
index array is a permutation of `0..n`, every leaf covers at most
`LEAF_SIZE = 4` indices, every internal node has exactly two children whose
ranges partition the parent's range at the median, and every node's box
contains the bounding boxes of all primitives in its range (the `Built`
predicate); the tree is a pure value, never mutated after construction. -/
theorem bvh_build_invariants (spheres : List Sphere) (hne : spheres ≠ []) :
    (Bvh.new spheres).indices.Perm (List.range spheres.length) ∧
    Built spheres (Bvh.new spheres).indices (Bvh.new spheres).root 0 spheres.length := by
  obtain ⟨_, hperm, _, hbuilt⟩ := bvhNew_spec spheres hne
  exact ⟨hperm, hbuilt⟩

/-- C9 witness: the invariants at a concrete one-sphere input. -/
theorem bvh_build_invariants_witness :
    ([cexSphere] ≠ []) ∧
    ((Bvh.new [cexSphere]).indices.Perm (List.range 1) ∧
      Built [cexSphere] (Bvh.new [cexSphere]).indices (Bvh.new [cexSphere]).root 0 1) := by
  have hne : [cexSphere] ≠ [] := by simp
  exact ⟨hne, bvh_build_invariants [cexSphere] hne⟩

/-! ## `ptroute-model/src/lib.rs`: graph and scene data model

String ids are their UTF-8 byte sequences (`List ℕ`, see `bytesLt`).
`f64` statistics (`rtt_delta_ms_avg`) travel through the layout untouched
(`clone` only), so exact rationals model them faithfully there.  The Rust
field names `from`/`to` are renamed `efrom`/`eto` (`from` is reserved). -/

structure Node where
  id : List Nat
  seen : Nat
  loss_probes : Nat
  deriving DecidableEq

structure Edge where
  efrom : List Nat
  eto : List Nat
  seen : Nat
  rtt_delta_ms_avg : ℚ
  deriving DecidableEq

structure GraphFile where
  version : Nat
  nodes : List Node
  edges : List Edge
  deriving DecidableEq

structure SceneNode where
  id : List Nat
  position : ℚ × ℚ × ℚ
  seen : Nat
  loss_probes : Nat
  deriving DecidableEq

structure SceneEdge where
  efrom : List Nat
  eto : List Nat
  seen : Nat
  rtt_delta_ms_avg : ℚ
  deriving DecidableEq

structure SceneFile where
  version : Nat
  nodes : List SceneNode
  edges : List SceneEdge
  deriving DecidableEq

/-! ## `ptroute-graph/src/layout.rs`: graph layout

The Rust code builds `HashMap`s keyed by id.  They are modelled
extensionally: `indegree`'s value at key `k` is the number of edges with
`to = k` (node ids are pre-inserted with value `0`, each edge increments
its target's entry, creating it at `0` if absent), so its key set is the
node ids together with all edge targets.  Hash-iteration order never
reaches the result: every read is a keyed lookup, an order-independent
`min`/`max` over the values, or a collection that is sorted before use. -/

def inCount (g : GraphFile) (k : List Nat) : Nat :=
  (g.edges.filter (fun e => decide (e.eto = k))).length

def outCount (g : GraphFile) (k : List Nat) : Nat :=
  (g.edges.filter (fun e => decide (e.efrom = k))).length

/-- Key set of the `indegree` map: node ids and edge targets. -/
def inKeys (g : GraphFile) : List (List Nat) :=
  (g.nodes.map Node.id ++ g.edges.map Edge.eto).dedup

/-- `adjacency.get(k)` after the per-key `neighbors.sort()`: the targets of
the edges leaving `k`, in input order, then sorted (stable; duplicate
entries are identical byte lists, so any sort agrees). -/
def neighborsOf (g : GraphFile) (k : List Nat) : List (List Nat) :=
  sSort bytesLe ((g.edges.filter (fun e => decide (e.efrom = k))).map Edge.eto)

/-- Association-list lookup; models `HashMap::get` (keys are inserted at
most once, so first match is the entry). -/
def alookup (l : List (List Nat × Nat)) (k : List Nat) : Option Nat :=
  (l.find? (fun p => decide (p.1 = k))).map Prod.snd

/-- Models `HashMap::contains_key`. -/
def hasKey (l : List (List Nat × Nat)) (k : List Nat) : Bool :=
  (l.find? (fun p => decide (p.1 = k))).isSome

/-- The sorted BFS start set: zero-indegree keys, or if none exist all keys
of minimal indegree (`unwrap_or(0)` on the empty key set), then `sort()`. -/
def startIds (g : GraphFile) : List (List Nat) :=
  let keys := inKeys g
  let z := keys.filter (fun k => decide (inCount g k = 0))
  let base :=
    if z.isEmpty then
      let minIn := (keys.map (fun k => inCount g k)).min?.getD 0
      keys.filter (fun k => decide (inCount g k = minIn))
    else z
  sSort bytesLe base

/-- The `while let Some(node) = queue.pop_front()` BFS loop.  `depth` is the
insertion-ordered association list for the `depth: HashMap`, `queue` the
`VecDeque`.  Fuel bounds the number of pops; see `depthMap` for why the
chosen fuel is never exhausted. -/
def bfsGo (g : GraphFile) :
    Nat → List (List Nat × Nat) → List (List Nat) → List (List Nat × Nat)
  | 0, depth, _ => depth
  | fuel + 1, depth, queue =>
    match queue with
    | [] => depth
    | node :: rest =>
      let nextDepth := (alookup depth node).getD 0 + 1
      let step := (neighborsOf g node).foldl
        (fun (acc : List (List Nat × Nat) × List (List Nat)) nb =>
          if hasKey acc.1 nb then acc
          else (acc.1 ++ [(nb, nextDepth)], acc.2 ++ [nb]))
        (depth, rest)
      bfsGo g fuel step.1 step.2

/-- The `depth` map after BFS from the start set.  Each pop consumes one
queue element; elements are enqueued only when their key is freshly
inserted into `depth`, keys are never removed, and inserted keys are edge
targets, so enqueues after initialisation number at most `g.edges.length`;
initial queue length is at most `(inKeys g).length`.  The fuel
`(inKeys g).length + g.edges.length + 1` therefore strictly dominates the
number of pops and the loop always terminates by emptying the queue,
exactly as the Rust loop does. -/
def depthMap (g : GraphFile) : List (List Nat × Nat) :=
  let starts := startIds g
  bfsGo g ((inKeys g).length + g.edges.length + 1)
    (starts.map (fun s => (s, 0))) starts

/-- Fuelled integer base-2 logarithm: `log2floor fuel n = ⌊log₂ n⌋` for
`n ≥ 1` whenever `fuel ≥ n`. -/
def log2floor : Nat → Nat → Nat
  | 0, _ => 0
  | fuel + 1, n => if 2 ≤ n then log2floor fuel (n / 2) + 1 else 0

/-- `degree_bucket`.  `f64::from(degree).log2().floor() as i32`: u32→f64 is
exact, and for arguments `< 2^32` the 53-bit `log2` is exact at powers of
two and bounded away from integers elsewhere, so the floor is the integer
base-2 logarithm. -/
def degree_bucket (degree : Nat) : Int :=
  if degree = 0 then 0 else max (log2floor degree degree : Int) 0

def u64size : Nat := 2 ^ 64

/-- The FNV-1a-style hash inside `jitter`: `0xcbf29ce484222325 ^ seed`,
then per byte xor and `wrapping_mul(0x100000001b3)`. -/
def jitterHash (seed : Nat) (id : List Nat) : Nat :=
  id.foldl (fun h b => Nat.xor h (b % 256) * 0x100000001b3 % u64size)
    (Nat.xor 0xcbf29ce484222325 (seed % u64size))

/-- `jitter(seed, id) = (hash / u64::MAX) * 2 - 1`, the float divisions and
casts taken exactly in ℚ. -/
def jitter (seed : Nat) (id : List Nat) : ℚ :=
  (jitterHash seed id : ℚ) / ((u64size - 1 : Nat) : ℚ) * 2 - 1

/-- `layout_graph`.  Nodes are stably sorted by id (`sort_by` on
`a.id.cmp(&b.id)`); for a node id the `indegree`/`outdegree` lookups always
hit the pre-inserted entries, whose values are `inCount`/`outCount`. -/
def layout_graph (g : GraphFile) (seed : Nat) : SceneFile :=
  if g.nodes.isEmpty then { version := 1, nodes := [], edges := [] }
  else
    let depth := depthMap g
    let maxDepth := (depth.map Prod.snd).foldl max 0
    let fallbackDepth := maxDepth + 1
    let laneSpacing : ℚ := 2
    let jitterScale : ℚ := 1 / 2
    let nodesSorted := sSort (fun a b => bytesLe a.id b.id) g.nodes
    let nodes := nodesSorted.map (fun node =>
      let degree := inCount g node.id + outCount g node.id
      let bucket := degree_bucket degree
      let x : ℚ := ((alookup depth node.id).getD fallbackDepth : Nat)
      let y : ℚ := (bucket : ℚ) * laneSpacing
      let z : ℚ := jitter seed node.id * jitterScale
      ({ id := node.id, position := (x, y, z), seen := node.seen,
         loss_probes := node.loss_probes } : SceneNode))
    let edges := g.edges.map (fun e =>
      ({ efrom := e.efrom, eto := e.eto, seen := e.seen,
         rtt_delta_ms_avg := e.rtt_delta_ms_avg } : SceneEdge))
    { version := 1, nodes := nodes, edges := edges }

theorem layout_graph_empty (g : GraphFile) (seed : Nat) (h : g.nodes.isEmpty = true) :
    layout_graph g seed = { version := 1, nodes := [], edges := [] } := by
  rw [layout_graph, if_pos h]

theorem layout_graph_ne (g : GraphFile) (seed : Nat) (h : g.nodes.isEmpty = false) :
    layout_graph g seed =
      { version := 1,
        nodes := (sSort (fun a b => bytesLe a.id b.id) g.nodes).map (fun node =>
          ({ id := node.id,
             position :=
               ((((alookup (depthMap g) node.id).getD
                   (((depthMap g).map Prod.snd).foldl max 0 + 1) : Nat) : ℚ),
                (degree_bucket (inCount g node.id + outCount g node.id) : ℚ) * 2,
                jitter seed node.id * (1 / 2)),
             seen := node.seen, loss_probes := node.loss_probes } : SceneNode)),
        edges := g.edges.map (fun e =>
          ({ efrom := e.efrom, eto := e.eto, seen := e.seen,
             rtt_delta_ms_avg := e.rtt_delta_ms_avg } : SceneEdge)) } := by
  rw [layout_graph, if_neg (by rw [h]; exact Bool.false_ne_true)]

/-- Projection of a scene node forgetting the z (jitter) coordinate: id,
x (depth), y (lane), seen, loss_probes. -/
def nodeSansZ (n : SceneNode) : List Nat × ℚ × ℚ × Nat × Nat :=
  (n.id, n.position.1, n.position.2.1, n.seen, n.loss_probes)

/-- C4: for every graph and every two seeds, `layout_graph` produces scenes
identical in everything except the z (jitter) coordinate of each node:
version, the full edge list, and per node (in order) the id, x (depth),
y (lane), seen and loss_probes all agree. -/
theorem layout_seed_affects_only_jitter (g : GraphFile) (s1 s2 : Nat) :
    (layout_graph g s1).version = (layout_graph g s2).version ∧
    (layout_graph g s1).edges = (layout_graph g s2).edges ∧
    (layout_graph g s1).nodes.map nodeSansZ =
      (layout_graph g s2).nodes.map nodeSansZ := by
  cases he : g.nodes.isEmpty with
  | true =>
    rw [layout_graph_empty g s1 he, layout_graph_empty g s2 he]
    exact ⟨rfl, rfl, rfl⟩
  | false =>
    rw [layout_graph_ne g s1 he, layout_graph_ne g s2 he]
    refine ⟨rfl, rfl, ?_⟩
    simp only [List.map_map]
    congr 1

/-- A graph with no nodes but one edge (A → B, seen 8, rtt 2.0). -/
def cexEdgeOnlyGraph : GraphFile :=
  { version := 1, nodes := [],
    edges := [{ efrom := [65], eto := [66], seen := 8, rtt_delta_ms_avg := 2 }] }

/-- C5 counterexample: on a graph whose node list is empty but whose edge
list is not, `layout_graph` takes the empty-graph early return and drops
the edges: the input has one edge, the scene has none. -/
theorem layout_drops_edges_on_empty_nodes :
    cexEdgeOnlyGraph.edges.length = 1 ∧
    (layout_graph cexEdgeOnlyGraph 0).edges = [] :=
  ⟨rfl, rfl⟩

/-- C5 (amended): for every graph with a nonempty node list, the scene edge
list is the input edge list in input order with all fields (from, to, seen,
rtt_delta_ms_avg) unchanged. -/
theorem layout_edges_copied (g : GraphFile) (seed : Nat) (hne : g.nodes ≠ []) :
    (layout_graph g seed).edges = g.edges.map (fun e =>
      ({ efrom := e.efrom, eto := e.eto, seen := e.seen,
         rtt_delta_ms_avg := e.rtt_delta_ms_avg } : SceneEdge)) := by
  have he : g.nodes.isEmpty = false := by
    cases h : g.nodes with
    | nil => exact absurd h hne
    | cons a l => rfl
  rw [layout_graph_ne g seed he]

/-- A graph with one node A and one edge A → B. -/
def cexOneNodeGraph : GraphFile :=
  { version := 1, nodes := [{ id := [65], seen := 10, loss_probes := 0 }],
    edges := [{ efrom := [65], eto := [66], seen := 8, rtt_delta_ms_avg := 2 }] }

/-- Witness for the amended C5 theorem at a concrete one-node graph. -/
theorem layout_edges_copied_witness :
    cexOneNodeGraph.nodes ≠ [] ∧
    (layout_graph cexOneNodeGraph 0).edges = cexOneNodeGraph.edges.map (fun e =>
      ({ efrom := e.efrom, eto := e.eto, seen := e.seen,
         rtt_delta_ms_avg := e.rtt_delta_ms_avg } : SceneEdge)) :=
  ⟨by decide, layout_edges_copied cexOneNodeGraph 0 (by decide)⟩

/-- The scenario-B graph: nodes A (seen 10, loss 0) and B (seen 5, loss 1),
single edge A → B (seen 8, rtt 2.0); ids as UTF-8 bytes, A = [65],
B = [66]. -/
def scenarioGraph : GraphFile :=
  { version := 1,
    nodes := [{ id := [65], seen := 10, loss_probes := 0 },
              { id := [66], seen := 5, loss_probes := 1 }],
    edges := [{ efrom := [65], eto := [66], seen := 8, rtt_delta_ms_avg := 2 }] }

/-- C8: on the scenario graph with seed 1, `layout_graph` assigns A depth 0
(x coordinate 0; A has in-degree 0 and is the unique BFS start) and B
depth 1 (x coordinate 1), nodes listed in id order. -/
theorem layout_scenario_depths :
    (layout_graph scenarioGraph 1).nodes.map (fun n => (n.id, n.position.1)) =
      [([65], (0 : ℚ)), ([66], 1)] := by
  decide

/-! ## `integrator.rs`: deterministic hashing and the RNG

All `u64` arithmetic is `ℕ` with explicit `% 2^64`; right shifts are
division by powers of two. -/

/-- `hash_seed(seed, x, y, sample)`: xor-mix then a splitmix64-style
finalizer (`wrapping_add`/`wrapping_mul` are modular). -/
def hash_seed (seed x y sample : Nat) : Nat :=
  let v := Nat.xor (Nat.xor (Nat.xor (seed % u64size) (x % 2 ^ 32 * 2 ^ 32))
    (y % 2 ^ 32 * 2 ^ 16)) (sample % 2 ^ 32)
  let v := (v + 0x9e3779b97f4a7c15) % u64size
  let v := Nat.xor v (v / 2 ^ 30) * 0xbf58476d1ce4e5b9 % u64size
  let v := Nat.xor v (v / 2 ^ 27) * 0x94d049bb133111eb % u64size
  Nat.xor v (v / 2 ^ 31)

/-- The LCG `Rng` (integrator.rs): `state: u64`. -/
structure Rng where
  state : Nat
  deriving DecidableEq

/-- `Rng::new`: seed 0 is replaced by `0xdeadbeefcafebabe`. -/
def Rng.new (seed : Nat) : Rng :=
  ⟨if seed = 0 then 0xdeadbeefcafebabe else seed⟩

/-- `Rng::next_u32`: LCG step, upper 32 bits; returns value and new state. -/
def Rng.next_u32 (r : Rng) : Nat × Rng :=
  let s := (r.state * 6364136223846793005 + 1) % u64size
  (s / 2 ^ 32, ⟨s⟩)

/-- `Rng::next_f32`: `value as f32 / u32::MAX as f32`, taken exactly in ℚ
(float rounding abstracted; all integrator theorems compare runs of this
same model). -/
def Rng.next_f32 (r : Rng) : ℚ × Rng :=
  let p := r.next_u32
  ((p.1 : ℚ) / ((2 ^ 32 - 1 : Nat) : ℚ), p.2)

/-! ## Transcendental surrogates

`f32::ln`, `tan`, `to_radians` and `f32::INFINITY` have no exact rational
counterpart.  Each is replaced by a fixed computable surrogate.  Every
theorem below is insensitive to the surrogate values: the integrator
theorems are equalities between two runs of the same model, and the only
concrete evaluation of `lnQ` is at `1`, where IEEE `ln` is exact
(`ln 1 = 0`). -/

/-- Surrogate for `f32::INFINITY`: a rational above every finite `f32`. -/
def f32Inf : ℚ := 2 ^ 128

/-- Rational π surrogate (used only inside `toRadiansQ`). -/
def piQ : ℚ := 3141592653589793 / 10 ^ 15

/-- Surrogate for `f32::to_radians`. -/
def toRadiansQ (deg : ℚ) : ℚ := deg * (piQ / 180)

/-- Surrogate for `f32::tan` (truncated series; adequate near 0.3, and no
theorem depends on its value). -/
def tanQ (x : ℚ) : ℚ := x + x ^ 3 / 3 + 2 * x ^ 5 / 15

/-- Surrogate for `f32::ln` on positive arguments, built from the integer
base-2 logarithm; exact at 1 (`lnQ 1 = 0`, as in IEEE).  The code only
applies it to `seen.max(1) ≥ 1`, so the `q ≤ 0` branch is never reached. -/
def lnQ (q : ℚ) : ℚ :=
  if q ≤ 0 then 0
  else if q < 1 then -(693147 / 1000000 : ℚ) * (log2floor 64 ⌊1 / q⌋₊ : ℚ)
  else (693147 / 1000000 : ℚ) * (log2floor (⌊q⌋₊ + 1) ⌊q⌋₊ : ℚ)

/-! ## `camera.rs`: `Camera` over ℚ -/

structure Camera where
  origin : Vec3
  lower_left : Vec3
  horizontal : Vec3
  vertical : Vec3
  deriving DecidableEq

/-- `Camera::new`. -/
def Camera.new (look_from look_at vup : Vec3) (vfov_deg aspect : ℚ) : Camera :=
  let theta := toRadiansQ vfov_deg
  let h := tanQ (theta * (1 / 2))
  let viewport_height := 2 * h
  let viewport_width := aspect * viewport_height
  let w := (look_from.sub look_at).normalized
  let u := (vup.cross w).normalized
  let v := w.cross u
  let origin := look_from
  let horizontal := u.smul viewport_width
  let vertical := v.smul viewport_height
  let lower_left := ((origin.sub (horizontal.smul (1 / 2))).sub (vertical.smul (1 / 2))).sub w
  ⟨origin, lower_left, horizontal, vertical⟩

/-- `Camera::ray`. -/
def Camera.ray (c : Camera) (u v : ℚ) : Ray :=
  ⟨c.origin,
   (((c.lower_left.add (c.horizontal.smul u)).add (c.vertical.smul v)).sub c.origin).normalized⟩

/-! ## `integrator.rs`: scene construction -/

/-- `color_from_id`: FNV-1a over the id bytes (xor with seed 0 is the
identity, so `jitterHash 0` is exactly this hash), then three channel
bytes mapped into `[0.2, 1.0]`. -/
def color_from_id (id : List Nat) : Vec3 :=
  let hash := jitterHash 0 id
  let r : ℚ := ((hash / 2 ^ 0 % 256 : Nat) : ℚ) / 255
  let g : ℚ := ((hash / 2 ^ 8 % 256 : Nat) : ℚ) / 255
  let b : ℚ := ((hash / 2 ^ 16 % 256 : Nat) : ℚ) / 255
  ⟨2 / 10 + 8 / 10 * r, 2 / 10 + 8 / 10 * g, 2 / 10 + 8 / 10 * b⟩

/-- `node_radius(seen) = 0.15 + ln(seen.max(1) as f32) * 0.05`. -/
def node_radius (seen : Nat) : ℚ :=
  15 / 100 + lnQ ((max seen 1 : Nat) : ℚ) * (5 / 100)

/-- `link_radius(seen) = 0.04 + ln(seen.max(1) as f32) * 0.01`. -/
def link_radius (seen : Nat) : ℚ :=
  4 / 100 + lnQ ((max seen 1 : Nat) : ℚ) * (1 / 100)

/-- `link_intensity(seen, rtt_delta)`. -/
def link_intensity (seen : Nat) (rtt_delta : ℚ) : ℚ :=
  let freq := lnQ ((max seen 1 : Nat) : ℚ) + 1
  let rtt := 1 / (1 + |rtt_delta| / 50)
  3 * freq * rtt

def vecOfPos (p : ℚ × ℚ × ℚ) : Vec3 := ⟨p.1, p.2.1, p.2.2⟩

/-- The `positions: HashMap<String, Vec3>` of `build_spheres`, as an
insertion list with the newest entry in front (`HashMap::insert`
overwrites, so the head-first `find?` in `plookup` sees the last write). -/
def posList (scene : SceneFile) : List (List Nat × Vec3) :=
  scene.nodes.foldl (fun acc n => (n.id, vecOfPos n.position) :: acc) []

/-- `positions.get(k)`. -/
def plookup (l : List (List Nat × Vec3)) (k : List Nat) : Option Vec3 :=
  (l.find? (fun p => decide (p.1 = k))).map Prod.snd

/-- `spacing = (radius * 3.0).max(0.05)` for a link of this `seen`. -/
def edgeSpacing (seen : Nat) : ℚ := max (link_radius seen * 3) (5 / 100)

/-- `steps = ((distance / spacing).ceil() as u32).max(2)` (the ceiling of a
positive rational, so the `as u32` cast is the natural ceiling). -/
def edgeSteps (distance : ℚ) (seen : Nat) : Nat :=
  max ⌈distance / edgeSpacing seen⌉₊ 2

/-- The chain spheres one edge contributes in `build_spheres`: skip if an
endpoint is unknown or the endpoints are within `1e-4`; otherwise one
sphere per `i in 1..steps` at parameter `t = i / steps`.  `45, 62` are the
bytes of `"->"` in the formatted color id. -/
def edgeChain (positions : List (List Nat × Vec3)) (e : SceneEdge) : List Sphere :=
  match plookup positions e.efrom, plookup positions e.eto with
  | some pfrom, some pto =>
    let delta := pto.sub pfrom
    let distance := delta.length
    if distance ≤ 1 / 10000 then []
    else
      let radius := link_radius e.seen
      let steps := edgeSteps distance e.seen
      let emission := (color_from_id (e.efrom ++ [45, 62] ++ e.eto)).smul
        (link_intensity e.seen e.rtt_delta_ms_avg)
      let albedo : Vec3 := ⟨8 / 100, 8 / 100, 8 / 100⟩
      (List.range (steps - 1)).map (fun j =>
        ⟨pfrom.add (delta.smul (((j + 1 : Nat) : ℚ) / (steps : ℚ))), radius, albedo, emission⟩)
  | _, _ => []

/-- `build_spheres`: one sphere per node, then the chain spheres of each
edge in order (`continue` = empty contribution; `positions` is complete
before the edge loop starts). -/
def build_spheres (scene : SceneFile) : List Sphere :=
  scene.nodes.map (fun n =>
    ⟨vecOfPos n.position, node_radius n.seen, color_from_id n.id, Vec3.zero⟩)
  ++ scene.edges.foldr (fun e acc => edgeChain (posList scene) e ++ acc) []

/-- `RenderSettings` (threads is carried but, as proved below, never
affects the output). -/
structure RenderSettings where
  width : Nat
  height : Nat
  spp : Nat
  bounces : Nat
  seed : Nat
  progress_every : Nat
  threads : Nat
  deriving DecidableEq

/-- `build_camera`: min/max fold over node positions from `±INFINITY`
(surrogate `±f32Inf`; the empty-scene NaN behaviour is treated in the
separate floating-point model below). -/
def build_camera (scene : SceneFile) (settings : RenderSettings) : Camera :=
  let pts := scene.nodes.map (fun n => vecOfPos n.position)
  let mn := pts.foldl Vec3.vmin ⟨f32Inf, f32Inf, f32Inf⟩
  let mx := pts.foldl Vec3.vmax ⟨-f32Inf, -f32Inf, -f32Inf⟩
  let center := (mn.add mx).smul (1 / 2)
  let extent := max ((mx.sub mn).length) 1
  let distance := extent * (16 / 10)
  Camera.new (center.add ⟨distance, distance * (6 / 10), distance⟩) center ⟨0, 1, 0⟩ 35
    ((settings.width : ℚ) / (settings.height : ℚ))

/-! ## `integrator.rs`: path tracing -/

/-- `background(ray)`: sky/ground gradient on the ray direction. -/
def background (ray : Ray) : Vec3 :=
  let t := (1 / 2 : ℚ) * (ray.direction.y + 1)
  ((⟨5 / 100, 5 / 100, 7 / 100⟩ : Vec3).smul (1 - t)).add ((⟨6 / 10, 8 / 10, 1⟩ : Vec3).smul t)

/-- `random_unit_vector`: the rejection loop, fuelled.  The fallback at
fuel 0 is unreachable for fuel `2^64` (the LCG cycles through small values
long before); all theorems compare runs of this same model, so the
fallback value is immaterial. -/
def random_unit_vector : Nat → Rng → Vec3 × Rng
  | 0, rng => (Vec3.zero, rng)
  | fuel + 1, rng =>
    let p1 := rng.next_f32
    let p2 := p1.2.next_f32
    let p3 := p2.2.next_f32
    let p : Vec3 := ⟨p1.1 * 2 - 1, p2.1 * 2 - 1, p3.1 * 2 - 1⟩
    if p.dot p < 1 then (p.normalized, p3.2) else random_unit_vector fuel p3.2

/-- `random_in_hemisphere`. -/
def random_in_hemisphere (normal : Vec3) (rng : Rng) : Vec3 × Rng :=
  let d := random_unit_vector u64size rng
  let dir := if (d.1).dot normal < 0 then (d.1).smul (-1) else d.1
  ((normal.add dir).normalized, d.2)

/-- `trace`: the `for _ in 0..bounces` loop as structural recursion on the
remaining bounce count, threading `throughput`, `color` and the RNG. -/
def trace (bvh : Bvh) : Nat → Ray → Vec3 → Vec3 → Rng → Vec3 × Rng
  | 0, _, _, color, rng => (color, rng)
  | n + 1, ray, throughput, color, rng =>
    match bvh.hit ray (1 / 1000) f32Inf with
    | some hit =>
      let color := color.add (throughput.mulElem hit.emission)
      let d := random_in_hemisphere hit.normal rng
      let ray2 : Ray := ⟨hit.point.add (hit.normal.smul (1 / 1000)), d.1⟩
      trace bvh n ray2 (throughput.mulElem hit.albedo) color d.2
    | none => (color.add (throughput.mulElem (background ray)), rng)

/-- `RenderContext`. -/
structure RenderContext where
  bvh : Bvh
  camera : Camera

/-- `RenderContext::new`. -/
def RenderContext.new (scene : SceneFile) (settings : RenderSettings) : RenderContext :=
  ⟨Bvh.new (build_spheres scene), build_camera scene settings⟩

/-- The body of the `for sample` loop of `render_scene_accum`: one sample
of one pixel, with its own RNG seeded by
`hash_seed(seed, x, y, sample_index)` (`bounces.max(1)` is inlined at its
use). -/
def sampleColor (ctx : RenderContext) (settings : RenderSettings)
    (x y sampleIndex : Nat) : Vec3 :=
  let rng0 := Rng.new (hash_seed settings.seed x y sampleIndex)
  let p1 := rng0.next_f32
  let p2 := p1.2.next_f32
  let u := ((x : ℚ) + p1.1) / ((settings.width : Nat) : ℚ)
  let v := ((y : ℚ) + p2.1) / ((settings.height : Nat) : ℚ)
  (trace ctx.bvh (max settings.bounces 1) (ctx.camera.ray u (1 - v)) ⟨1, 1, 1⟩ Vec3.zero p2.2).1

/-- The `for sample in 0..spp` loop for one pixel: the sample colors of
indices `sample_offset..sample_offset + samples.max(1)` summed in order. -/
def pixelColor (ctx : RenderContext) (settings : RenderSettings)
    (x y sampleOffset samples : Nat) : Vec3 :=
  (List.range (max samples 1)).foldl (fun color sample =>
    color.add (sampleColor ctx settings x y (sampleOffset + sample))) Vec3.zero

/-- One row update of `render_scene_accum`: `row[x] = row[x] + color`
(rows of the flat `accum` buffer have length `width`, so the `getD`
default is never read). -/
def updateRow (ctx : RenderContext) (settings : RenderSettings)
    (sampleOffset samples y : Nat) (row : List Vec3) : List Vec3 :=
  (List.range settings.width).map (fun x =>
    (row.getD x Vec3.zero).add (pixelColor ctx settings x y sampleOffset samples))

/-- `par_chunks_mut(width).enumerate().for_each`: every row updated with
its own index.  The flat buffer is modelled as its list of width-sized
rows. -/
def renderRowsGo (f : Nat → List Vec3 → List Vec3) : Nat → List (List Vec3) → List (List Vec3)
  | _, [] => []
  | y, row :: rest => f y row :: renderRowsGo f (y + 1) rest

/-- `render_scene_accum` (the progress-printing side effects have no
bearing on the buffer). -/
def render_scene_accum (ctx : RenderContext) (settings : RenderSettings)
    (accum : List (List Vec3)) (sampleOffset samples : Nat) : List (List Vec3) :=
  renderRowsGo (updateRow ctx settings sampleOffset samples) 0 accum

/-- `render_scene_accum` under an explicit rayon schedule: the worker pool
processes rows in some order `order`; each step reads and writes only its
own row.  `with_thread_pool` runs the same closure whatever the thread
count, so the thread count enters only through this order. -/
def processOrder (ctx : RenderContext) (settings : RenderSettings)
    (sampleOffset samples : Nat) (accum : List (List Vec3)) (order : List Nat) :
    List (List Vec3) :=
  order.foldl (fun acc y =>
    acc.set y (updateRow ctx settings sampleOffset samples y (acc.getD y []))) accum

/-- An RGB image: `height` rows of `width` channel triples. -/
structure Image where
  width : Nat
  height : Nat
  pixels : List (List (Nat × Nat × Nat))
  deriving DecidableEq

/-- `to_rgb`: clamp, gamma (`sqrt`), scale to 255 and truncate to `u8`
(the value is in `[0, 255]`, so the saturating cast is the floor). -/
def to_rgb (c : Vec3) : Nat × Nat × Nat :=
  let g := c.clamp01
  (⌊sqrtQ g.x * 255⌋₊, ⌊sqrtQ g.y * 255⌋₊, ⌊sqrtQ g.z * 255⌋₊)

/-- `image_from_accum`: scale by `1 / samples.max(1)` and tone-map. -/
def image_from_accum (accum : List (List Vec3)) (width height samples : Nat) : Image :=
  let scale : ℚ := 1 / ((max samples 1 : Nat) : ℚ)
  ⟨width, height, (List.range height).map (fun y =>
    (List.range width).map (fun x => to_rgb (((accum.getD y []).getD x Vec3.zero).smul scale)))⟩

/-- `vec![Vec3::zero(); width * height]` as rows. -/
def zeroAccum (settings : RenderSettings) : List (List Vec3) :=
  List.replicate settings.height (List.replicate settings.width Vec3.zero)

/-- `render_scene`.  `none` models the `par_chunks_mut(0)` panic that
`width = 0` causes inside `render_scene_accum` (rayon rejects chunk size
zero); every other input renders. -/
def render_scene (scene : SceneFile) (settings : RenderSettings) : Option Image :=
  if settings.width = 0 then none
  else
    let ctx := RenderContext.new scene settings
    some (image_from_accum (render_scene_accum ctx settings (zeroAccum settings) 0 settings.spp)
      settings.width settings.height settings.spp)

/-- `render_scene` under an explicit rayon row schedule (see
`processOrder`). -/
def render_scene_ordered (scene : SceneFile) (settings : RenderSettings)
    (order : List Nat) : Option Image :=
  if settings.width = 0 then none
  else
    let ctx := RenderContext.new scene settings
    some (image_from_accum (processOrder ctx settings 0 settings.spp (zeroAccum settings) order)
      settings.width settings.height settings.spp)

/-- The `while done < target` loop of `render_scene_progressive`,
collecting every `on_pass` snapshot.  Each iteration adds `pass ≥ 1`
samples, so `target` iterations always suffice: the fuel never runs out. -/
def progressiveGo (ctx : RenderContext) (settings : RenderSettings) (target step : Nat) :
    Nat → Nat → List (List Vec3) → List (Image × Nat)
  | 0, _, _ => []
  | fuel + 1, done, accum =>
    if done < target then
      let pass := min (target - done) step
      let accum2 := render_scene_accum ctx settings accum done pass
      (image_from_accum accum2 settings.width settings.height (done + pass), done + pass) ::
        progressiveGo ctx settings target step fuel (done + pass) accum2
    else []

/-- `render_scene_progressive`: the list of `(snapshot, done)` pairs passed
to `on_pass`; `none` models the same `width = 0` panic as `render_scene`. -/
def render_scene_progressive (scene : SceneFile) (settings : RenderSettings)
    (progressive_every : Nat) : Option (List (Image × Nat)) :=
  if settings.width = 0 then none
  else
    let ctx := RenderContext.new scene settings
    some (progressiveGo ctx settings (max settings.spp 1) (max progressive_every 1)
      (max settings.spp 1) 0 (zeroAccum settings))

/-- The specification's reading of the progressive loop: every snapshot is
a fresh single-pass render of its cumulative sample count from a zero
buffer, with the same normalization.  This is the comparison point for the
chunked-equals-full claim. -/
def progressiveSpecGo (ctx : RenderContext) (settings : RenderSettings) (target step : Nat) :
    Nat → Nat → List (Image × Nat)
  | 0, _ => []
  | fuel + 1, done =>
    if done < target then
      let pass := min (target - done) step
      (image_from_accum (render_scene_accum ctx settings (zeroAccum settings) 0 (done + pass))
        settings.width settings.height (done + pass), done + pass) ::
        progressiveSpecGo ctx settings target step fuel (done + pass)
    else []

/-- `render_scene_progressive` recomputed from scratch at every snapshot
(specification side of C3). -/
def progressiveRecomputed (scene : SceneFile) (settings : RenderSettings)
    (progressive_every : Nat) : Option (List (Image × Nat)) :=
  if settings.width = 0 then none
  else
    let ctx := RenderContext.new scene settings
    some (progressiveSpecGo ctx settings (max settings.spp 1) (max progressive_every 1)
      (max settings.spp 1) 0)

theorem renderRowsGo_getElem (f : Nat → List Vec3 → List Vec3) (accum : List (List Vec3))
    (k n : Nat) : (renderRowsGo f k accum)[n]? = (accum[n]?).map (fun r => f (k + n) r) := by
  induction accum generalizing k n with
  | nil => simp [renderRowsGo]
  | cons row rest ih =>
    cases n with
    | zero => simp [renderRowsGo]
    | succ m =>
      simp only [renderRowsGo, List.getElem?_cons_succ]
      rw [ih]
      have harith : k + 1 + m = k + (m + 1) := by omega
      rw [harith]

theorem setStep_getElem (f : Nat → List Vec3 → List Vec3) (accum : List (List Vec3))
    (y m : Nat) : ((accum.set y (f y (accum.getD y [])))[m]?) =
      (if m = y then (accum[m]?).map (fun r => f m r) else accum[m]?) := by
  by_cases hm : m = y
  · subst hm
    rw [if_pos rfl]
    by_cases hlen : m < accum.length
    · rw [List.getElem?_set_self hlen, List.getD_eq_getElem?_getD]
      rcases List.getElem?_eq_getElem hlen with hg
      rw [hg]
      rfl
    · have hle : accum.length ≤ m := Nat.le_of_not_lt hlen
      rw [List.set_eq_of_length_le hle, List.getElem?_eq_none_iff.mpr hle]
      rfl
  · rw [if_neg hm, List.getElem?_set_ne (fun hc => hm hc.symm)]

theorem foldl_set_getElem (f : Nat → List Vec3 → List Vec3) (accum : List (List Vec3))
    (order : List Nat) (hnd : order.Nodup) (n : Nat) :
    (order.foldl (fun acc y => acc.set y (f y (acc.getD y []))) accum)[n]? =
      if n ∈ order then (accum[n]?).map (fun r => f n r) else accum[n]? := by
  induction order generalizing accum with
  | nil => simp
  | cons y ys ih =>
    have hy : y ∉ ys := (List.nodup_cons.mp hnd).1
    have hnd2 : ys.Nodup := (List.nodup_cons.mp hnd).2
    simp only [List.foldl_cons]
    rw [ih _ hnd2, setStep_getElem]
    by_cases hys : n ∈ ys
    · have hne : n ≠ y := fun hc => hy (hc ▸ hys)
      rw [if_pos hys, if_neg hne, if_pos (List.mem_cons_of_mem y hys)]
    · rw [if_neg hys]
      by_cases hne : n = y
      · rw [if_pos hne, if_pos (hne ▸ List.mem_cons_self n ys)]
      · rw [if_neg hne, if_neg (by simp [hne, hys])]

/-- Any schedule that touches every row exactly once produces the
sequential row sweep: the per-row updates read and write disjoint state. -/
theorem processOrder_eq (ctx : RenderContext) (settings : RenderSettings)
    (sampleOffset samples : Nat) (accum : List (List Vec3)) (order : List Nat)
    (hperm : order.Perm (List.range accum.length)) :
    processOrder ctx settings sampleOffset samples accum order =
      render_scene_accum ctx settings accum sampleOffset samples := by
  have hnd : order.Nodup := hperm.nodup_iff.mpr (List.nodup_range _)
  apply List.ext_getElem?
  intro n
  rw [processOrder, render_scene_accum,
    foldl_set_getElem (updateRow ctx settings sampleOffset samples) accum order hnd n,
    renderRowsGo_getElem]
  by_cases hm : n ∈ order
  · rw [if_pos hm]
    simp only [Nat.zero_add]
  · rw [if_neg hm]
    have hlen : accum.length ≤ n := by
      by_contra hc
      exact hm (hperm.mem_iff.mpr (List.mem_range.mpr (Nat.lt_of_not_le hc)))
    rw [List.getElem?_eq_none_iff.mpr hlen]
    simp only [Option.map_none']

theorem render_scene_threads_congr (scene : SceneFile) (w h spp b seed pe t1 t2 : Nat) :
    render_scene scene ⟨w, h, spp, b, seed, pe, t1⟩ =
      render_scene scene ⟨w, h, spp, b, seed, pe, t2⟩ := rfl

/-- C2: the rendered image does not depend on the worker-thread count nor
on the order in which the scheduler hands rows to workers: for any two
thread settings and any two row schedules (each a permutation of the row
range), the ordered renders agree with each other and with the sequential
sweep, because each pixel sample is seeded purely by
`hash_seed(seed, x, y, sample index)` and each row update touches only its
own row. -/
theorem render_threads_schedule_independent (scene : SceneFile)
    (w h spp b seed pe t1 t2 : Nat) (o1 o2 : List Nat)
    (h1 : o1.Perm (List.range h)) (h2 : o2.Perm (List.range h)) :
    render_scene_ordered scene ⟨w, h, spp, b, seed, pe, t1⟩ o1 =
      render_scene_ordered scene ⟨w, h, spp, b, seed, pe, t2⟩ o2 ∧
    render_scene_ordered scene ⟨w, h, spp, b, seed, pe, t1⟩ o1 =
      render_scene scene ⟨w, h, spp, b, seed, pe, t1⟩ := by
  have key : ∀ t : Nat, ∀ o : List Nat, o.Perm (List.range h) →
      render_scene_ordered scene ⟨w, h, spp, b, seed, pe, t⟩ o =
        render_scene scene ⟨w, h, spp, b, seed, pe, t⟩ := by
    intro t o ho
    simp only [render_scene_ordered, render_scene]
    by_cases hw : w = 0
    · rw [if_pos hw, if_pos hw]
    · rw [if_neg hw, if_neg hw]
      have hlen : (zeroAccum ⟨w, h, spp, b, seed, pe, t⟩).length = h := by
        simp [zeroAccum]
      rw [processOrder_eq _ _ _ _ _ _ (by rw [hlen]; exact ho)]
  refine ⟨?_, key t1 o1 h1⟩
  rw [key t1 o1 h1, key t2 o2 h2]
  exact render_scene_threads_congr scene w h spp b seed pe t1 t2

/-- Witness for C2 at a concrete input (empty scene, one column, zero
rows, schedules `[]`). -/
theorem render_threads_schedule_independent_witness :
    ([] : List Nat).Perm (List.range 0) ∧
    (render_scene_ordered ⟨1, [], []⟩ ⟨1, 0, 2, 1, 7, 0, 0⟩ [] =
       render_scene_ordered ⟨1, [], []⟩ ⟨1, 0, 2, 1, 7, 0, 8⟩ [] ∧
     render_scene_ordered ⟨1, [], []⟩ ⟨1, 0, 2, 1, 7, 0, 0⟩ [] =
       render_scene ⟨1, [], []⟩ ⟨1, 0, 2, 1, 7, 0, 0⟩) :=
  ⟨by simp, render_threads_schedule_independent ⟨1, [], []⟩ 1 0 2 1 7 0 0 8 [] []
    (by simp) (by simp)⟩

/-- C10 counterexample: at width 0 the rendering does not succeed for any
spp — `accum.par_chunks_mut(width)` panics on chunk size 0 (modelled as
`none`) with spp 0 just as with spp 1, so "rendering with spp = 0
succeeds" fails. -/
theorem render_width_zero_none :
    render_scene ⟨1, [], []⟩ ⟨0, 24, 0, 1, 1, 0, 0⟩ = none ∧
    render_scene ⟨1, [], []⟩ ⟨0, 24, 1, 1, 1, 0, 0⟩ = none :=
  ⟨rfl, rfl⟩

/-- C10 (amended): for positive width (where rendering succeeds at all),
spp = 0 renders and is bit-identical to spp = 1: the per-pass sample count
and the normalization divisor are both clamped to a minimum of 1. -/
theorem render_spp_zero_matches_one (scene : SceneFile) (w h b seed pe t : Nat)
    (hw : 0 < w) :
    render_scene scene ⟨w, h, 0, b, seed, pe, t⟩ =
      render_scene scene ⟨w, h, 1, b, seed, pe, t⟩ ∧
    (render_scene scene ⟨w, h, 0, b, seed, pe, t⟩).isSome = true := by
  constructor
  · rfl
  · simp only [render_scene]
    rw [if_neg (Nat.pos_iff_ne_zero.mp hw)]
    rfl

/-- Witness for the amended C10 theorem at a concrete input. -/
theorem render_spp_zero_matches_one_witness :
    0 < 1 ∧
    (render_scene ⟨1, [], []⟩ ⟨1, 0, 0, 2, 3, 0, 0⟩ =
       render_scene ⟨1, [], []⟩ ⟨1, 0, 1, 2, 3, 0, 0⟩ ∧
     (render_scene ⟨1, [], []⟩ ⟨1, 0, 0, 2, 3, 0, 0⟩).isSome = true) :=
  ⟨by decide, render_spp_zero_matches_one ⟨1, [], []⟩ 1 0 2 3 0 0 (by decide)⟩

/-! ## Progressive accumulation (C3) -/

theorem Vec3.add_assoc_v (a b c : Vec3) : (a.add b).add c = a.add (b.add c) := by
  cases a with
  | mk ax ay az =>
    cases b with
    | mk bx bby bz =>
      cases c with
      | mk cx cy cz =>
        simp only [Vec3.add, Vec3.mk.injEq]
        refine ⟨by ring, by ring, by ring⟩

theorem Vec3.zero_add_v (a : Vec3) : Vec3.zero.add a = a := by
  cases a with
  | mk ax ay az =>
    simp only [Vec3.zero, Vec3.add, Vec3.mk.injEq]
    refine ⟨by ring, by ring, by ring⟩

theorem Vec3.add_zero_v (a : Vec3) : a.add Vec3.zero = a := by
  cases a with
  | mk ax ay az =>
    simp only [Vec3.zero, Vec3.add, Vec3.mk.injEq]
    refine ⟨by ring, by ring, by ring⟩

theorem foldl_add_init (g : Nat → Vec3) (l : List Nat) (init : Vec3) :
    l.foldl (fun c s => c.add (g s)) init =
      init.add (l.foldl (fun c s => c.add (g s)) Vec3.zero) := by
  induction l generalizing init with
  | nil => simp only [List.foldl_nil]; rw [Vec3.add_zero_v]
  | cons s ss ih =>
    simp only [List.foldl_cons]
    rw [ih (init.add (g s)), ih (Vec3.zero.add (g s)), Vec3.zero_add_v, Vec3.add_assoc_v]

theorem foldl_range_split (F : Nat → Vec3) (p q : Nat) :
    (List.range (p + q)).foldl (fun c s => c.add (F s)) Vec3.zero =
      ((List.range p).foldl (fun c s => c.add (F s)) Vec3.zero).add
        ((List.range q).foldl (fun c s => c.add (F (p + s))) Vec3.zero) := by
  rw [List.range_add, List.foldl_append, List.foldl_map, foldl_add_init]

/-- Sample-range additivity for one pixel: `p` samples from `o` plus `q`
samples from `o + p` equal `p + q` samples from `o`. -/
theorem pixelColor_add (ctx : RenderContext) (settings : RenderSettings)
    (x y o p q : Nat) (hp : 1 ≤ p) (hq : 1 ≤ q) :
    (pixelColor ctx settings x y o p).add (pixelColor ctx settings x y (o + p) q) =
      pixelColor ctx settings x y o (p + q) := by
  simp only [pixelColor]
  rw [show max p 1 = p from by omega, show max q 1 = q from by omega,
    show max (p + q) 1 = p + q from by omega]
  have harg : (fun (c : Vec3) (s : Nat) => c.add (sampleColor ctx settings x y (o + p + s))) =
      (fun (c : Vec3) (s : Nat) => c.add (sampleColor ctx settings x y (o + (p + s)))) := by
    funext c s
    rw [Nat.add_assoc]
  rw [harg]
  exact (foldl_range_split (fun s => sampleColor ctx settings x y (o + s)) p q).symm

theorem updateRow_add (ctx : RenderContext) (settings : RenderSettings)
    (o p q y : Nat) (row : List Vec3) (hp : 1 ≤ p) (hq : 1 ≤ q) :
    updateRow ctx settings (o + p) q y (updateRow ctx settings o p y row) =
      updateRow ctx settings o (p + q) y row := by
  simp only [updateRow]
  apply List.ext_getElem?
  intro i
  simp only [List.getElem?_map]
  by_cases hi : i < settings.width
  · rw [List.getElem?_range hi]
    simp only [Option.map_some']
    rw [List.getD_eq_getElem?_getD]
    simp only [List.getElem?_map, List.getElem?_range hi, Option.map_some', Option.getD_some]
    rw [Vec3.add_assoc_v, pixelColor_add ctx settings i y o p q hp hq]
  · rw [List.getElem?_eq_none_iff.mpr (by simpa using Nat.le_of_not_lt hi)]
    simp

theorem renderRowsGo_comp (f g : Nat → List Vec3 → List Vec3) (k : Nat)
    (accum : List (List Vec3)) :
    renderRowsGo f k (renderRowsGo g k accum) =
      renderRowsGo (fun y r => f y (g y r)) k accum := by
  induction accum generalizing k with
  | nil => rfl
  | cons row rest ih => simp only [renderRowsGo]; rw [ih]

theorem renderRowsGo_congr (f g : Nat → List Vec3 → List Vec3)
    (h : ∀ y r, f y r = g y r) (k : Nat) (accum : List (List Vec3)) :
    renderRowsGo f k accum = renderRowsGo g k accum := by
  induction accum generalizing k with
  | nil => rfl
  | cons row rest ih => simp only [renderRowsGo]; rw [h k row, ih]

/-- Accumulation is strictly additive across passes: a pass of `p` samples
followed by a pass of `q` samples from offset `o + p` equals one pass of
`p + q` samples. -/
theorem render_scene_accum_add (ctx : RenderContext) (settings : RenderSettings)
    (accum : List (List Vec3)) (o p q : Nat) (hp : 1 ≤ p) (hq : 1 ≤ q) :
    render_scene_accum ctx settings (render_scene_accum ctx settings accum o p) (o + p) q =
      render_scene_accum ctx settings accum o (p + q) := by
  simp only [render_scene_accum]
  rw [renderRowsGo_comp]
  exact renderRowsGo_congr _ _ (fun y r => updateRow_add ctx settings o p q y r hp hq) 0 accum

theorem pixelColor_clamp (ctx : RenderContext) (settings : RenderSettings)
    (x y o m : Nat) :
    pixelColor ctx settings x y o m = pixelColor ctx settings x y o (max m 1) := by
  simp only [pixelColor]
  rw [show max (max m 1) 1 = max m 1 from by omega]

theorem render_scene_accum_clamp (ctx : RenderContext) (settings : RenderSettings)
    (accum : List (List Vec3)) (o m : Nat) :
    render_scene_accum ctx settings accum o m =
      render_scene_accum ctx settings accum o (max m 1) := by
  simp only [render_scene_accum]
  apply renderRowsGo_congr
  intro y r
  simp only [updateRow]
  have hfun : (fun (x : Nat) => (r.getD x Vec3.zero).add (pixelColor ctx settings x y o m)) =
      (fun (x : Nat) => (r.getD x Vec3.zero).add (pixelColor ctx settings x y o (max m 1))) := by
    funext x
    rw [pixelColor_clamp ctx settings x y o m]
  rw [hfun]

theorem image_from_accum_clamp (accum : List (List Vec3)) (w h m : Nat) :
    image_from_accum accum w h m = image_from_accum accum w h (max m 1) := by
  simp only [image_from_accum]
  rw [show max (max m 1) 1 = max m 1 from by omega]

/-- The progressive loop never recomputes: starting from the cumulative
buffer of `done` samples it produces exactly the snapshots of the
recomputed-from-scratch reading. -/
theorem progressiveGo_eq_spec (ctx : RenderContext) (settings : RenderSettings)
    (target step : Nat) (hstep : 1 ≤ step) :
    ∀ fuel done accum,
      (done = 0 ∧ accum = zeroAccum settings) ∨
        (1 ≤ done ∧ accum = render_scene_accum ctx settings (zeroAccum settings) 0 done) →
      progressiveGo ctx settings target step fuel done accum =
        progressiveSpecGo ctx settings target step fuel done := by
  intro fuel
  induction fuel with
  | zero => intro done accum _; rfl
  | succ fuel ih =>
    intro done accum hinv
    simp only [progressiveGo, progressiveSpecGo]
    by_cases hd : done < target
    · rw [if_pos hd, if_pos hd]
      have hpass : 1 ≤ min (target - done) step := le_min (by omega) hstep
      have haccum2 : render_scene_accum ctx settings accum done (min (target - done) step) =
          render_scene_accum ctx settings (zeroAccum settings) 0
            (done + min (target - done) step) := by
        rcases hinv with ⟨h0, ha⟩ | ⟨h1, ha⟩
        · subst h0
          rw [ha, Nat.zero_add]
        · rw [ha, ← render_scene_accum_add ctx settings (zeroAccum settings) 0 done
            (min (target - done) step) h1 hpass, Nat.zero_add]
      rw [haccum2]
      rw [ih (done + min (target - done) step) _ (Or.inr ⟨by omega, rfl⟩)]
    · rw [if_neg hd, if_neg hd]

/-- The last snapshot of the recomputed reading is the full `target`-sample
render. -/
theorem progressiveSpecGo_getLast (ctx : RenderContext) (settings : RenderSettings)
    (target step : Nat) (hstep : 1 ≤ step) :
    ∀ fuel done, done < target → target - done ≤ fuel →
      (progressiveSpecGo ctx settings target step fuel done).getLast? =
        some (image_from_accum (render_scene_accum ctx settings (zeroAccum settings) 0 target)
          settings.width settings.height target, target) := by
  intro fuel
  induction fuel with
  | zero => intro done h1 h2; omega
  | succ fuel ih =>
    intro done hd hf
    simp only [progressiveSpecGo]
    rw [if_pos hd]
    have hpass : 1 ≤ min (target - done) step := le_min (by omega) hstep
    by_cases hd2 : done + min (target - done) step < target
    · have htail := ih (done + min (target - done) step) hd2 (by omega)
      cases htl : progressiveSpecGo ctx settings target step fuel
          (done + min (target - done) step) with
      | nil => rw [htl] at htail; simp at htail
      | cons b l =>
        rw [htl] at htail
        rw [show ∀ a : Image × Nat, (a :: b :: l).getLast? = (b :: l).getLast? from fun a => rfl]
        exact htail
    · have he : done + min (target - done) step = target := by omega
      have htail : progressiveSpecGo ctx settings target step fuel target = [] := by
        cases fuel with
        | zero => rfl
        | succ f =>
          simp only [progressiveSpecGo]
          rw [if_neg (by omega)]
      rw [he, htail]
      rfl

/-- C3: chunked progressive rendering equals full rendering.  Every
snapshot `render_scene_progressive` reports (for any chunk size, same
seed) is equal to a fresh single-pass render of its cumulative sample
count — the buffer is only added to, never recomputed — and in particular
the final snapshot is exactly the `render_scene` image; a `width = 0`
input fails both ways identically. -/
theorem progressive_chunks_match_full (scene : SceneFile) (settings : RenderSettings)
    (K : Nat) :
    render_scene_progressive scene settings K = progressiveRecomputed scene settings K ∧
    (render_scene_progressive scene settings K).map (fun snaps => snaps.getLast?.map Prod.fst) =
      (render_scene scene settings).map (fun img => some img) := by
  have hstep : 1 ≤ max K 1 := Nat.le_max_right K 1
  constructor
  · simp only [render_scene_progressive, progressiveRecomputed]
    by_cases hw : settings.width = 0
    · rw [if_pos hw, if_pos hw]
    · rw [if_neg hw, if_neg hw]
      rw [progressiveGo_eq_spec (RenderContext.new scene settings) settings
        (max settings.spp 1) (max K 1) hstep (max settings.spp 1) 0 _ (Or.inl ⟨rfl, rfl⟩)]
  · simp only [render_scene_progressive, render_scene]
    by_cases hw : settings.width = 0
    · rw [if_pos hw, if_pos hw]
      rfl
    · rw [if_neg hw, if_neg hw]
      simp only [Option.map_some']
      rw [progressiveGo_eq_spec (RenderContext.new scene settings) settings
        (max settings.spp 1) (max K 1) hstep (max settings.spp 1) 0 _ (Or.inl ⟨rfl, rfl⟩)]
      rw [progressiveSpecGo_getLast (RenderContext.new scene settings) settings
        (max settings.spp 1) (max K 1) hstep (max settings.spp 1) 0 (by omega) (by omega)]
      rw [render_scene_accum_clamp (RenderContext.new scene settings) settings
        (zeroAccum settings) 0 settings.spp,
        image_from_accum_clamp _ settings.width settings.height settings.spp]
      rfl

/-! ## Chain spheres of one edge (C6) -/

theorem edgeChain_eq (positions : List (List Nat × Vec3)) (e : SceneEdge) (pf pt : Vec3)
    (hf : plookup positions e.efrom = some pf) (ht : plookup positions e.eto = some pt)
    (hdist : 1 / 10000 < (pt.sub pf).length) :
    edgeChain positions e =
      (List.range (edgeSteps ((pt.sub pf).length) e.seen - 1)).map (fun j =>
        (⟨pf.add ((pt.sub pf).smul (((j + 1 : Nat) : ℚ) /
            ((edgeSteps ((pt.sub pf).length) e.seen : Nat) : ℚ))),
          link_radius e.seen,
          ⟨8 / 100, 8 / 100, 8 / 100⟩,
          (color_from_id (e.efrom ++ [45, 62] ++ e.eto)).smul
            (link_intensity e.seen e.rtt_delta_ms_avg)⟩ : Sphere)) := by
  rw [edgeChain, hf, ht]
  dsimp only
  rw [if_neg (not_le.mpr hdist)]

/-- C6 (amended): for every edge whose endpoints both resolve and whose
segment length exceeds `1e-4`, the chain has exactly `steps - 1 ≥ 1`
spheres — `steps = ((distance / spacing).ceil).max(2) ≥ 2`,
`spacing = (radius * 3).max(0.05)` — the `j`-th placed at parameter
`(j + 1) / steps`, strictly inside the open segment.  (The claim's "at
least 2 chain spheres" is off by one: `steps ≥ 2` subdivision intervals
give `steps - 1 ≥ 1` interior spheres, and 1 is attained.) -/
theorem edge_chain_spheres (positions : List (List Nat × Vec3)) (e : SceneEdge)
    (pf pt : Vec3) (hf : plookup positions e.efrom = some pf)
    (ht : plookup positions e.eto = some pt)
    (hdist : 1 / 10000 < (pt.sub pf).length) :
    (edgeChain positions e).length = edgeSteps ((pt.sub pf).length) e.seen - 1 ∧
    2 ≤ edgeSteps ((pt.sub pf).length) e.seen ∧
    1 ≤ (edgeChain positions e).length ∧
    (∀ j, j < edgeSteps ((pt.sub pf).length) e.seen - 1 →
      (edgeChain positions e)[j]? =
        some ⟨pf.add ((pt.sub pf).smul (((j + 1 : Nat) : ℚ) /
            ((edgeSteps ((pt.sub pf).length) e.seen : Nat) : ℚ))),
          link_radius e.seen,
          ⟨8 / 100, 8 / 100, 8 / 100⟩,
          (color_from_id (e.efrom ++ [45, 62] ++ e.eto)).smul
            (link_intensity e.seen e.rtt_delta_ms_avg)⟩ ∧
      0 < ((j + 1 : Nat) : ℚ) / ((edgeSteps ((pt.sub pf).length) e.seen : Nat) : ℚ) ∧
      ((j + 1 : Nat) : ℚ) / ((edgeSteps ((pt.sub pf).length) e.seen : Nat) : ℚ) < 1) := by
  have hchain := edgeChain_eq positions e pf pt hf ht hdist
  have hsteps : 2 ≤ edgeSteps ((pt.sub pf).length) e.seen := le_max_right _ 2
  have hlen : (edgeChain positions e).length =
      edgeSteps ((pt.sub pf).length) e.seen - 1 := by
    rw [hchain, List.length_map, List.length_range]
  refine ⟨hlen, hsteps, by omega, ?_⟩
  intro j hj
  have hstepsPos : (0 : ℚ) < ((edgeSteps ((pt.sub pf).length) e.seen : Nat) : ℚ) := by
    exact_mod_cast Nat.lt_of_lt_of_le (by omega) hsteps
  refine ⟨?_, ?_, ?_⟩
  · rw [hchain, List.getElem?_map, List.getElem?_range hj, Option.map_some']
  · apply div_pos _ hstepsPos
    exact_mod_cast Nat.succ_pos j
  · rw [div_lt_one hstepsPos]
    exact_mod_cast (by omega : j + 1 < edgeSteps ((pt.sub pf).length) e.seen)

def cexPositions : List (List Nat × Vec3) := [([65], ⟨0, 0, 0⟩), ([66], ⟨9 / 100, 0, 0⟩)]

def cexEdge : SceneEdge := { efrom := [65], eto := [66], seen := 1, rtt_delta_ms_avg := 0 }

theorem cexC6_radius : link_radius 1 = 4 / 100 := by
  have h : log2floor 2 1 = 0 := rfl
  norm_num [link_radius, lnQ, Nat.floor_one, h]

theorem cexC6_spacing : edgeSpacing 1 = 12 / 100 := by
  rw [edgeSpacing, cexC6_radius, max_eq_left (by norm_num : (5 / 100 : ℚ) ≤ 4 / 100 * 3)]
  norm_num

theorem cexC6_dist : ((⟨9 / 100, 0, 0⟩ : Vec3).sub ⟨0, 0, 0⟩).length = 9 / 100 := by
  norm_num [Vec3.length, Vec3.sub, Vec3.dot, sqrtQ_q81]

theorem cexC6_steps : edgeSteps (9 / 100) 1 = 2 := by
  rw [edgeSteps, cexC6_spacing]
  rw [show ((9 : ℚ) / 100) / (12 / 100) = 3 / 4 by norm_num]
  rw [show ⌈(3 / 4 : ℚ)⌉₊ = 1 by rw [Nat.ceil_eq_iff (by norm_num)]; norm_num]
  rfl

/-- C6 counterexample: an edge between resolved endpoints `0.09` apart
(above the `1e-4` threshold, `seen = 1` so `radius = 0.04` exactly,
`spacing = 0.12`) gets `steps = max(⌈0.75⌉, 2) = 2` and hence exactly one
chain sphere, not the claimed minimum of two. -/
theorem edge_chain_single_sphere :
    plookup cexPositions cexEdge.efrom = some ⟨0, 0, 0⟩ ∧
    plookup cexPositions cexEdge.eto = some ⟨9 / 100, 0, 0⟩ ∧
    1 / 10000 < (((⟨9 / 100, 0, 0⟩ : Vec3).sub ⟨0, 0, 0⟩).length) ∧
    (edgeChain cexPositions cexEdge).length = 1 := by
  have hf : plookup cexPositions cexEdge.efrom = some ⟨0, 0, 0⟩ := rfl
  have ht : plookup cexPositions cexEdge.eto = some ⟨9 / 100, 0, 0⟩ := rfl
  have hd : 1 / 10000 < (((⟨9 / 100, 0, 0⟩ : Vec3).sub ⟨0, 0, 0⟩).length) := by
    rw [cexC6_dist]; norm_num
  refine ⟨hf, ht, hd, ?_⟩
  rw [edgeChain_eq cexPositions cexEdge ⟨0, 0, 0⟩ ⟨9 / 100, 0, 0⟩ hf ht hd,
    List.length_map, List.length_range, cexC6_dist]
  rw [show cexEdge.seen = 1 from rfl, cexC6_steps]

/-- Witness for the amended C6 theorem at the concrete 0.09-length edge. -/
theorem edge_chain_spheres_witness :
    plookup cexPositions cexEdge.efrom = some ⟨0, 0, 0⟩ ∧
    1 / 10000 < (((⟨9 / 100, 0, 0⟩ : Vec3).sub ⟨0, 0, 0⟩).length) ∧
    (edgeChain cexPositions cexEdge).length =
      edgeSteps (((⟨9 / 100, 0, 0⟩ : Vec3).sub ⟨0, 0, 0⟩).length) cexEdge.seen - 1 ∧
    2 ≤ edgeSteps (((⟨9 / 100, 0, 0⟩ : Vec3).sub ⟨0, 0, 0⟩).length) cexEdge.seen ∧
    1 ≤ (edgeChain cexPositions cexEdge).length := by
  have hf : plookup cexPositions cexEdge.efrom = some ⟨0, 0, 0⟩ := rfl
  have ht : plookup cexPositions cexEdge.eto = some ⟨9 / 100, 0, 0⟩ := rfl
  have hd : 1 / 10000 < (((⟨9 / 100, 0, 0⟩ : Vec3).sub ⟨0, 0, 0⟩).length) := by
    rw [cexC6_dist]; norm_num
  have h := edge_chain_spheres cexPositions cexEdge ⟨0, 0, 0⟩ ⟨9 / 100, 0, 0⟩ hf ht hd
  exact ⟨hf, hd, h.1, h.2.1, h.2.2.1⟩

/-! ## Floating-point special values (C7)

The empty-scene claim turns on IEEE-754 special values: `build_camera`
folds from `±INFINITY`, an empty scene leaves the fold untouched, and
`∞ + (-∞) = NaN` then poisons the camera.  For this claim the render
pipeline is re-embedded over `FP` — rationals extended with `nan` and the
signed infinities.  Finite arithmetic stays exact (rounding and
overflow-to-infinity abstracted, signed zero collapsed to `fin 0`); the
special-value rules are IEEE/Rust: `nan` propagates through arithmetic,
every comparison involving `nan` is false, Rust's `f32::max`/`f32::min`
return the other operand on a `nan` argument, `f32::clamp` propagates
`nan`, and the saturating `as u8` cast sends `nan` to 0. -/

inductive FP where
  | nan
  | pinf
  | ninf
  | fin (q : ℚ)
  deriving DecidableEq

namespace FP

def fneg : FP → FP
  | nan => nan
  | pinf => ninf
  | ninf => pinf
  | fin q => fin (-q)

/-- IEEE addition (nested matches so a `nan` left operand short-circuits
without inspecting the right operand). -/
def fadd (a b : FP) : FP :=
  match a with
  | nan => nan
  | pinf =>
    match b with
    | nan => nan
    | ninf => nan
    | _ => pinf
  | ninf =>
    match b with
    | nan => nan
    | pinf => nan
    | _ => ninf
  | fin p =>
    match b with
    | nan => nan
    | pinf => pinf
    | ninf => ninf
    | fin q => fin (p + q)

/-- IEEE subtraction is addition of the negation. -/
def fsub (a b : FP) : FP := fadd a (fneg b)

def fmul (a b : FP) : FP :=
  match a with
  | nan => nan
  | pinf =>
    match b with
    | nan => nan
    | pinf => pinf
    | ninf => ninf
    | fin q => if 0 < q then pinf else if q < 0 then ninf else nan
  | ninf =>
    match b with
    | nan => nan
    | pinf => ninf
    | ninf => pinf
    | fin q => if 0 < q then ninf else if q < 0 then pinf else nan
  | fin p =>
    match b with
    | nan => nan
    | pinf => if 0 < p then pinf else if p < 0 then ninf else nan
    | ninf => if 0 < p then ninf else if p < 0 then pinf else nan
    | fin q => fin (p * q)

def fdiv (a b : FP) : FP :=
  match a with
  | nan => nan
  | pinf =>
    match b with
    | fin q => if 0 ≤ q then pinf else ninf
    | _ => nan
  | ninf =>
    match b with
    | fin q => if 0 ≤ q then ninf else pinf
    | _ => nan
  | fin p =>
    match b with
    | nan => nan
    | pinf => fin 0
    | ninf => fin 0
    | fin q =>
      if q = 0 then (if 0 < p then pinf else if p < 0 then ninf else nan)
      else fin (p / q)

def fsqrt : FP → FP
  | nan => nan
  | pinf => pinf
  | ninf => nan
  | fin q => if q < 0 then nan else fin (sqrtQ q)

/-- Rust `f32::max`: a `nan` operand is ignored. -/
def fmax (a b : FP) : FP :=
  match a with
  | nan => b
  | pinf => pinf
  | ninf =>
    match b with
    | nan => ninf
    | pinf => pinf
    | ninf => ninf
    | fin q => fin q
  | fin p =>
    match b with
    | nan => fin p
    | pinf => pinf
    | ninf => fin p
    | fin q => fin (max p q)

/-- Rust `f32::min`: a `nan` operand is ignored. -/
def fmin (a b : FP) : FP :=
  match a with
  | nan => b
  | ninf => ninf
  | pinf =>
    match b with
    | nan => pinf
    | pinf => pinf
    | ninf => ninf
    | fin q => fin q
  | fin p =>
    match b with
    | nan => fin p
    | pinf => fin p
    | ninf => ninf
    | fin q => fin (min p q)

/-- `<`: false whenever an operand is `nan`. -/
def flt (a b : FP) : Bool :=
  match a with
  | nan => false
  | pinf => false
  | ninf =>
    match b with
    | nan => false
    | ninf => false
    | _ => true
  | fin p =>
    match b with
    | nan => false
    | pinf => true
    | ninf => false
    | fin q => decide (p < q)

/-- `≤`: false whenever an operand is `nan`. -/
def fle (a b : FP) : Bool :=
  match a with
  | nan => false
  | ninf =>
    match b with
    | nan => false
    | _ => true
  | pinf =>
    match b with
    | pinf => true
    | _ => false
  | fin p =>
    match b with
    | nan => false
    | pinf => true
    | ninf => false
    | fin q => decide (p ≤ q)

/-- `==`: `nan` equals nothing. -/
def feq (a b : FP) : Bool :=
  match a with
  | nan => false
  | pinf =>
    match b with
    | pinf => true
    | _ => false
  | ninf =>
    match b with
    | ninf => true
    | _ => false
  | fin p =>
    match b with
    | fin q => decide (p = q)
    | _ => false

/-- Rust `f32::clamp(0.0, 1.0)`: propagates `nan`. -/
def fclamp01 : FP → FP
  | nan => nan
  | pinf => fin 1
  | ninf => fin 0
  | fin q => fin (min (max q 0) 1)

/-- The saturating `as u8` cast: `nan` to 0, truncation toward zero. -/
def ftoU8 : FP → Nat
  | nan => 0
  | pinf => 255
  | ninf => 0
  | fin q => if q ≤ 0 then 0 else if (255 : ℚ) ≤ q then 255 else ⌊q⌋₊

/-- The saturating `as u32` cast of the already-rounded `ceil` result. -/
def fceilU32 : FP → Nat
  | nan => 0
  | pinf => 4294967295
  | ninf => 0
  | fin q => if q ≤ 0 then 0 else min (Int.toNat ⌈q⌉) 4294967295

/-- `f32::tan` (finite values via the rational surrogate; `tan(±∞)` is
`nan`). -/
def ftan : FP → FP
  | fin q => fin (tanQ q)
  | _ => nan

/-- `f32::to_radians`: multiplication by a positive finite constant. -/
def ftoRadians : FP → FP
  | nan => nan
  | pinf => pinf
  | ninf => ninf
  | fin q => fin (toRadiansQ q)

end FP

structure FVec3 where
  x : FP
  y : FP
  z : FP
  deriving DecidableEq

namespace FVec3

def zero : FVec3 := ⟨.fin 0, .fin 0, .fin 0⟩

def add (a b : FVec3) : FVec3 := ⟨FP.fadd a.x b.x, FP.fadd a.y b.y, FP.fadd a.z b.z⟩

def sub (a b : FVec3) : FVec3 := ⟨FP.fsub a.x b.x, FP.fsub a.y b.y, FP.fsub a.z b.z⟩

def smul (a : FVec3) (s : FP) : FVec3 := ⟨FP.fmul a.x s, FP.fmul a.y s, FP.fmul a.z s⟩

def sdiv (a : FVec3) (s : FP) : FVec3 := ⟨FP.fdiv a.x s, FP.fdiv a.y s, FP.fdiv a.z s⟩

def dot (a b : FVec3) : FP :=
  FP.fadd (FP.fadd (FP.fmul a.x b.x) (FP.fmul a.y b.y)) (FP.fmul a.z b.z)

def cross (a b : FVec3) : FVec3 :=
  ⟨FP.fsub (FP.fmul a.y b.z) (FP.fmul a.z b.y),
   FP.fsub (FP.fmul a.z b.x) (FP.fmul a.x b.z),
   FP.fsub (FP.fmul a.x b.y) (FP.fmul a.y b.x)⟩

def length (a : FVec3) : FP := FP.fsqrt (a.dot a)

def normalized (a : FVec3) : FVec3 :=
  let len := a.length
  if FP.feq len (.fin 0) then a else a.sdiv len

def vmin (a b : FVec3) : FVec3 := ⟨FP.fmin a.x b.x, FP.fmin a.y b.y, FP.fmin a.z b.z⟩

def vmax (a b : FVec3) : FVec3 := ⟨FP.fmax a.x b.x, FP.fmax a.y b.y, FP.fmax a.z b.z⟩

def clamp01 (a : FVec3) : FVec3 := ⟨FP.fclamp01 a.x, FP.fclamp01 a.y, FP.fclamp01 a.z⟩

def mulElem (a b : FVec3) : FVec3 :=
  ⟨FP.fmul a.x b.x, FP.fmul a.y b.y, FP.fmul a.z b.z⟩

end FVec3

structure FRay where
  origin : FVec3
  direction : FVec3
  deriving DecidableEq

def FRay.at (r : FRay) (t : FP) : FVec3 := r.origin.add (r.direction.smul t)

structure FHit where
  t : FP
  point : FVec3
  normal : FVec3
  albedo : FVec3
  emission : FVec3
  deriving DecidableEq

structure FSphere where
  center : FVec3
  radius : FP
  albedo : FVec3
  emission : FVec3
  deriving DecidableEq

/-- The `Hit` record `Sphere::hit` builds, over `FP`. -/
def FSphere.mkHit (s : FSphere) (ray : FRay) (t : FP) : FHit :=
  ⟨t, ray.at t, ((ray.at t).sub s.center).sdiv s.radius, s.albedo, s.emission⟩

/-- `Sphere::hit` over `FP` (`root > t_max` is `t_max < root`, false on
`nan` operands exactly as in IEEE). -/
def FSphere.hit (s : FSphere) (ray : FRay) (tMin tMax : FP) : Option FHit :=
  let oc := ray.origin.sub s.center
  let a := ray.direction.dot ray.direction
  let half_b := oc.dot ray.direction
  let c := FP.fsub (oc.dot oc) (FP.fmul s.radius s.radius)
  let disc := FP.fsub (FP.fmul half_b half_b) (FP.fmul a c)
  if FP.flt disc (.fin 0) then none
  else
    let sqrt_d := FP.fsqrt disc
    let root1 := FP.fdiv (FP.fsub (FP.fneg half_b) sqrt_d) a
    if FP.flt root1 tMin || FP.flt tMax root1 then
      let root2 := FP.fdiv (FP.fadd (FP.fneg half_b) sqrt_d) a
      if FP.flt root2 tMin || FP.flt tMax root2 then none
      else some (s.mkHit ray root2)
    else some (s.mkHit ray root1)

structure FAabb where
  lo : FVec3
  hi : FVec3
  deriving DecidableEq

/-- `Aabb::empty()`: the `±INFINITY` identity of `union`. -/
def FAabb.empty : FAabb := ⟨⟨.pinf, .pinf, .pinf⟩, ⟨.ninf, .ninf, .ninf⟩⟩

def FAabb.fromSphere (s : FSphere) : FAabb :=
  ⟨s.center.sub ⟨s.radius, s.radius, s.radius⟩, s.center.add ⟨s.radius, s.radius, s.radius⟩⟩

def FAabb.union (a b : FAabb) : FAabb := ⟨a.lo.vmin b.lo, a.hi.vmax b.hi⟩

def FAabb.extent (a : FAabb) : FVec3 := a.hi.sub a.lo

/-- `hit_axis` over `FP` (`origin >= min` is `fle min origin`). -/
def fhitAxis (mn mx o d a1 a2 : FP) : Bool × FP × FP :=
  if FP.feq d (.fin 0) then (FP.fle mn o && FP.fle o mx, a1, a2)
  else
    let invD := FP.fdiv (.fin 1) d
    let t0 := FP.fmul (FP.fsub mn o) invD
    let t1 := FP.fmul (FP.fsub mx o) invD
    let tt := if FP.flt invD (.fin 0) then (t1, t0) else (t0, t1)
    let b1 := FP.fmax tt.1 a1
    let b2 := FP.fmin tt.2 a2
    (FP.flt b1 b2, b1, b2)

/-- `Aabb::hit` over `FP`. -/
def FAabb.hit (b : FAabb) (ray : FRay) (tMin tMax : FP) : Bool :=
  let rx := fhitAxis b.lo.x b.hi.x ray.origin.x ray.direction.x tMin tMax
  if rx.1 = false then false
  else
    let ry := fhitAxis b.lo.y b.hi.y ray.origin.y ray.direction.y rx.2.1 rx.2.2
    if ry.1 = false then false
    else (fhitAxis b.lo.z b.hi.z ray.origin.z ray.direction.z ry.2.1 ry.2.2).1

def fsphAt (spheres : List FSphere) (i : Nat) : FSphere :=
  spheres.getD i ⟨FVec3.zero, .fin 0, FVec3.zero, FVec3.zero⟩

def fsphereCenterAxis (s : FSphere) (axis : Nat) : FP :=
  if axis = 0 then s.center.x else if axis = 1 then s.center.y else s.center.z

/-- The box fold of `BvhNode::build`, from `Aabb::empty()` exactly as in
the source (over `FP` the `±∞` start needs no rewriting). -/
def faabbOfIndices (spheres : List FSphere) (idxs : List Nat) : FAabb :=
  idxs.foldl (fun b j => b.union (FAabb.fromSphere (fsphAt spheres j))) FAabb.empty

inductive FBvhNode where
  | mk (bbox : FAabb) (left : Option FBvhNode) (right : Option FBvhNode) (sidx eidx : Nat)

def FBvhNode.bbox : FBvhNode → FAabb
  | .mk b _ _ _ _ => b

def FBvhNode.left : FBvhNode → Option FBvhNode
  | .mk _ l _ _ _ => l

def FBvhNode.right : FBvhNode → Option FBvhNode
  | .mk _ _ r _ _ => r

def FBvhNode.sidx : FBvhNode → Nat
  | .mk _ _ _ s _ => s

def FBvhNode.eidx : FBvhNode → Nat
  | .mk _ _ _ _ e => e

/-- The split axis (`ext.x >= ext.y` is `fle ext.y ext.x`). -/
def fbuildAxis (spheres : List FSphere) (idxs : List Nat) : Nat :=
  let ext := (faabbOfIndices spheres idxs).extent
  if FP.fle ext.y ext.x && FP.fle ext.z ext.x then 0
  else if FP.fle ext.z ext.y then 1 else 2

/-- The `sort_by` on centroid `partial_cmp(..).unwrap_or(Equal)`: the
comparator answers `Greater` exactly when `cb < ca`, so stable-sort with
`le a b := !(cb < ca)`; incomparable (`nan`) keys compare `Equal`. -/
def fbuildSorted (spheres : List FSphere) (idxs : List Nat) : List Nat :=
  sSort (fun i j =>
    !(FP.flt (fsphereCenterAxis (fsphAt spheres j) (fbuildAxis spheres idxs))
      (fsphereCenterAxis (fsphAt spheres i) (fbuildAxis spheres idxs)))) idxs

/-- `BvhNode::build` over `FP`, fuelled like its ℚ counterpart. -/
def FBvhNode.build : Nat → List Nat → List FSphere → Nat → FBvhNode × List Nat
  | 0, idxs, _spheres, offset =>
    (⟨FAabb.empty, none, none, offset, offset + idxs.length⟩, idxs)
  | fuel + 1, idxs, spheres, offset =>
    if idxs.length ≤ leafSize then
      (⟨faabbOfIndices spheres idxs, none, none, offset, offset + idxs.length⟩, idxs)
    else
      let sorted := fbuildSorted spheres idxs
      let mid := sorted.length / 2
      let lres := FBvhNode.build fuel (sorted.take mid) spheres offset
      let rres := FBvhNode.build fuel (sorted.drop mid) spheres (offset + mid)
      (⟨lres.1.bbox.union rres.1.bbox, some lres.1, some rres.1, 0, 0⟩, lres.2 ++ rres.2)

def fscanStep (spheres : List FSphere) (ray : FRay) (tMin : FP)
    (acc : Option FHit × FP) (idx : Nat) : Option FHit × FP :=
  match (fsphAt spheres idx).hit ray tMin acc.2 with
  | some h => (some h, h.t)
  | none => acc

def fscanIds (spheres : List FSphere) (ids : List Nat) (ray : FRay) (tMin tMax : FP) :
    Option FHit :=
  (ids.foldl (fscanStep spheres ray tMin) ((none : Option FHit), tMax)).1

def foptOr (a b : Option FHit) : Option FHit :=
  match a with
  | some x => some x
  | none => b

/-- `BvhNode::hit` over `FP`, fuelled like its ℚ counterpart. -/
def FBvhNode.hitFuel : Nat → FBvhNode → FRay → FP → FP → List FSphere → List Nat → Option FHit
  | 0, _, _, _, _, _, _ => none
  | fuel + 1, n, ray, tMin, tMax, spheres, indices =>
    if n.bbox.hit ray tMin tMax = false then none
    else if n.left.isNone ∧ n.right.isNone then
      fscanIds spheres ((indices.drop n.sidx).take (n.eidx - n.sidx)) ray tMin tMax
    else
      let lres := match n.left with
        | none => none
        | some l => FBvhNode.hitFuel fuel l ray tMin tMax spheres indices
      let closestT := match lres with
        | some h => h.t
        | none => tMax
      let rres := match n.right with
        | none => none
        | some r => FBvhNode.hitFuel fuel r ray tMin closestT spheres indices
      foptOr rres lres

structure FBvh where
  spheres : List FSphere
  indices : List Nat
  root : FBvhNode

/-- `Bvh::new` over `FP`. -/
def FBvh.new (spheres : List FSphere) : FBvh :=
  let indices := List.range spheres.length
  if indices.isEmpty then
    ⟨spheres, indices, ⟨FAabb.empty, none, none, 0, 0⟩⟩
  else
    let res := FBvhNode.build indices.length indices spheres 0
    ⟨spheres, res.2, res.1⟩

/-- `Bvh::hit` over `FP`: the empty-scene early `None` guards everything. -/
def FBvh.hit (b : FBvh) (ray : FRay) (tMin tMax : FP) : Option FHit :=
  if b.indices.isEmpty then none
  else FBvhNode.hitFuel (b.indices.length + 1) b.root ray tMin tMax b.spheres b.indices

structure FCamera where
  origin : FVec3
  lower_left : FVec3
  horizontal : FVec3
  vertical : FVec3

/-- `Camera::new` over `FP`. -/
def FCamera.new (look_from look_at vup : FVec3) (vfov_deg aspect : FP) : FCamera :=
  let theta := FP.ftoRadians vfov_deg
  let h := FP.ftan (FP.fmul theta (.fin (1 / 2)))
  let viewport_height := FP.fmul (.fin 2) h
  let viewport_width := FP.fmul aspect viewport_height
  let w := (look_from.sub look_at).normalized
  let u := (vup.cross w).normalized
  let v := w.cross u
  let origin := look_from
  let horizontal := u.smul viewport_width
  let vertical := v.smul viewport_height
  let lower_left :=
    ((origin.sub (horizontal.smul (.fin (1 / 2)))).sub (vertical.smul (.fin (1 / 2)))).sub w
  ⟨origin, lower_left, horizontal, vertical⟩

/-- `Camera::ray` over `FP`. -/
def FCamera.ray (c : FCamera) (u v : FP) : FRay :=
  ⟨c.origin,
   (((c.lower_left.add (c.horizontal.smul u)).add (c.vertical.smul v)).sub c.origin).normalized⟩

def fvecOfPos (p : ℚ × ℚ × ℚ) : FVec3 := ⟨.fin p.1, .fin p.2.1, .fin p.2.2⟩

/-- `color_from_id` over `FP`: the hash arithmetic is integral and the
channel math small and finite, so the ℚ value wrapped in `fin` is exact. -/
def fcolor_from_id (id : List Nat) : FVec3 :=
  ⟨.fin (color_from_id id).x, .fin (color_from_id id).y, .fin (color_from_id id).z⟩

/-- `node_radius` over `FP`: `ln` is applied to `seen.max(1) ≥ 1`, where
`f32::ln` is finite, so the ℚ value is exact up to rounding. -/
def fnode_radius (seen : Nat) : FP := .fin (node_radius seen)

def flink_radius (seen : Nat) : FP := .fin (link_radius seen)

def flink_intensity (seen : Nat) (rtt_delta : ℚ) : FP := .fin (link_intensity seen rtt_delta)

def fposList (scene : SceneFile) : List (List Nat × FVec3) :=
  scene.nodes.foldl (fun acc n => (n.id, fvecOfPos n.position) :: acc) []

def fplookup (l : List (List Nat × FVec3)) (k : List Nat) : Option FVec3 :=
  (l.find? (fun p => decide (p.1 = k))).map Prod.snd

/-- `build_spheres`' edge chain over `FP` (`distance <= 0.0001` is false on
`nan`, as in Rust). -/
def fedgeChain (positions : List (List Nat × FVec3)) (e : SceneEdge) : List FSphere :=
  match fplookup positions e.efrom, fplookup positions e.eto with
  | some pfrom, some pto =>
    let delta := pto.sub pfrom
    let distance := delta.length
    if FP.fle distance (.fin (1 / 10000)) then []
    else
      let radius := flink_radius e.seen
      let spacing := FP.fmax (FP.fmul radius (.fin 3)) (.fin (5 / 100))
      let steps := max (FP.fceilU32 (FP.fdiv distance spacing)) 2
      let emission := (fcolor_from_id (e.efrom ++ [45, 62] ++ e.eto)).smul
        (flink_intensity e.seen e.rtt_delta_ms_avg)
      let albedo : FVec3 := ⟨.fin (8 / 100), .fin (8 / 100), .fin (8 / 100)⟩
      (List.range (steps - 1)).map (fun j =>
        ⟨pfrom.add (delta.smul (FP.fdiv (.fin ((j + 1 : Nat) : ℚ)) (.fin ((steps : Nat) : ℚ)))),
         radius, albedo, emission⟩)
  | _, _ => []

/-- `build_spheres` over `FP`. -/
def fbuild_spheres (scene : SceneFile) : List FSphere :=
  scene.nodes.map (fun n =>
    ⟨fvecOfPos n.position, fnode_radius n.seen, fcolor_from_id n.id, FVec3.zero⟩)
  ++ scene.edges.foldr (fun e acc => fedgeChain (fposList scene) e ++ acc) []

/-- `build_camera` over `FP`: the genuine `±INFINITY` fold start. -/
def fbuild_camera (scene : SceneFile) (settings : RenderSettings) : FCamera :=
  let pts := scene.nodes.map (fun n => fvecOfPos n.position)
  let mn := pts.foldl FVec3.vmin ⟨.pinf, .pinf, .pinf⟩
  let mx := pts.foldl FVec3.vmax ⟨.ninf, .ninf, .ninf⟩
  let center := (mn.add mx).smul (.fin (1 / 2))
  let extent := FP.fmax ((mx.sub mn).length) (.fin 1)
  let distance := FP.fmul extent (.fin (16 / 10))
  FCamera.new (center.add ⟨distance, FP.fmul distance (.fin (6 / 10)), distance⟩) center
    ⟨.fin 0, .fin 1, .fin 0⟩ (.fin 35)
    (FP.fdiv (.fin ((settings.width : Nat) : ℚ)) (.fin ((settings.height : Nat) : ℚ)))

/-- `background` over `FP`. -/
def fbackground (ray : FRay) : FVec3 :=
  let t := FP.fmul (.fin (1 / 2)) (FP.fadd ray.direction.y (.fin 1))
  (((⟨.fin (5 / 100), .fin (5 / 100), .fin (7 / 100)⟩ : FVec3).smul (FP.fsub (.fin 1) t)).add
    ((⟨.fin (6 / 10), .fin (8 / 10), .fin 1⟩ : FVec3).smul t))

/-- `random_unit_vector` over `FP` (`next_f32` values are finite). -/
def frandom_unit_vector : Nat → Rng → FVec3 × Rng
  | 0, rng => (FVec3.zero, rng)
  | fuel + 1, rng =>
    let p1 := rng.next_f32
    let p2 := p1.2.next_f32
    let p3 := p2.2.next_f32
    let p : FVec3 := ⟨.fin (p1.1 * 2 - 1), .fin (p2.1 * 2 - 1), .fin (p3.1 * 2 - 1)⟩
    if FP.flt (p.dot p) (.fin 1) then (p.normalized, p3.2)
    else frandom_unit_vector fuel p3.2

/-- `random_in_hemisphere` over `FP`. -/
def frandom_in_hemisphere (normal : FVec3) (rng : Rng) : FVec3 × Rng :=
  let d := frandom_unit_vector u64size rng
  let dir := if FP.flt (d.1.dot normal) (.fin 0) then d.1.smul (.fin (-1)) else d.1
  ((normal.add dir).normalized, d.2)

/-- `trace` over `FP`, with the true `f32::INFINITY` upper bound. -/
def ftrace (bvh : FBvh) : Nat → FRay → FVec3 → FVec3 → Rng → FVec3 × Rng
  | 0, _, _, color, rng => (color, rng)
  | n + 1, ray, throughput, color, rng =>
    match bvh.hit ray (.fin (1 / 1000)) .pinf with
    | some hit =>
      let color := color.add (throughput.mulElem hit.emission)
      let d := frandom_in_hemisphere hit.normal rng
      let ray2 : FRay := ⟨hit.point.add (hit.normal.smul (.fin (1 / 1000))), d.1⟩
      ftrace bvh n ray2 (throughput.mulElem hit.albedo) color d.2
    | none => (color.add (throughput.mulElem (fbackground ray)), rng)

structure FRenderContext where
  bvh : FBvh
  camera : FCamera

def FRenderContext.new (scene : SceneFile) (settings : RenderSettings) : FRenderContext :=
  ⟨FBvh.new (fbuild_spheres scene), fbuild_camera scene settings⟩

/-- One pixel sample over `FP` (the `+`/`as f32` on pixel indices and RNG
values are finite and exact). -/
def fsampleColor (ctx : FRenderContext) (settings : RenderSettings)
    (x y sampleIndex : Nat) : FVec3 :=
  let rng0 := Rng.new (hash_seed settings.seed x y sampleIndex)
  let p1 := rng0.next_f32
  let p2 := p1.2.next_f32
  let u := FP.fdiv (.fin ((x : ℚ) + p1.1)) (.fin ((settings.width : Nat) : ℚ))
  let v := FP.fdiv (.fin ((y : ℚ) + p2.1)) (.fin ((settings.height : Nat) : ℚ))
  (ftrace ctx.bvh (max settings.bounces 1) (ctx.camera.ray u (FP.fsub (.fin 1) v))
    ⟨.fin 1, .fin 1, .fin 1⟩ FVec3.zero p2.2).1

def fpixelColor (ctx : FRenderContext) (settings : RenderSettings)
    (x y sampleOffset samples : Nat) : FVec3 :=
  (List.range (max samples 1)).foldl (fun color sample =>
    color.add (fsampleColor ctx settings x y (sampleOffset + sample))) FVec3.zero

def fupdateRow (ctx : FRenderContext) (settings : RenderSettings)
    (sampleOffset samples y : Nat) (row : List FVec3) : List FVec3 :=
  (List.range settings.width).map (fun x =>
    (row.getD x FVec3.zero).add (fpixelColor ctx settings x y sampleOffset samples))

def frenderRowsGo (f : Nat → List FVec3 → List FVec3) :
    Nat → List (List FVec3) → List (List FVec3)
  | _, [] => []
  | y, row :: rest => f y row :: frenderRowsGo f (y + 1) rest

def frender_scene_accum (ctx : FRenderContext) (settings : RenderSettings)
    (accum : List (List FVec3)) (sampleOffset samples : Nat) : List (List FVec3) :=
  frenderRowsGo (fupdateRow ctx settings sampleOffset samples) 0 accum

/-- `to_rgb` over `FP`: `clamp` propagates `nan`, `sqrt(nan) = nan`, and
the `as u8` cast saturates `nan` to 0 — a `nan` channel becomes black. -/
def fto_rgb (c : FVec3) : Nat × Nat × Nat :=
  let g := c.clamp01
  (FP.ftoU8 (FP.fmul (FP.fsqrt g.x) (.fin 255)),
   FP.ftoU8 (FP.fmul (FP.fsqrt g.y) (.fin 255)),
   FP.ftoU8 (FP.fmul (FP.fsqrt g.z) (.fin 255)))

def fimage_from_accum (accum : List (List FVec3)) (width height samples : Nat) : Image :=
  let scale := FP.fdiv (.fin 1) (.fin ((max samples 1 : Nat) : ℚ))
  ⟨width, height, (List.range height).map (fun y =>
    (List.range width).map (fun x =>
      fto_rgb (((accum.getD y []).getD x FVec3.zero).smul scale)))⟩

def fzeroAccum (settings : RenderSettings) : List (List FVec3) :=
  List.replicate settings.height (List.replicate settings.width FVec3.zero)

/-- `render_scene` over `FP` (same `width = 0` panic modelling as the ℚ
pipeline). -/
def frender_scene (scene : SceneFile) (settings : RenderSettings) : Option Image :=
  if settings.width = 0 then none
  else
    let ctx := FRenderContext.new scene settings
    some (fimage_from_accum
      (frender_scene_accum ctx settings (fzeroAccum settings) 0 settings.spp)
      settings.width settings.height settings.spp)

/-! ## The empty scene renders black (C7) -/

/-- The all-`nan` vector the empty-scene camera degenerates to. -/
def nanV : FVec3 := ⟨.nan, .nan, .nan⟩

theorem fadd_nan_right (x : FP) : FP.fadd x .nan = .nan := by cases x <;> rfl

theorem add_nanV_right (v : FVec3) : v.add nanV = nanV := by
  cases v with
  | mk a b c => simp [FVec3.add, nanV, fadd_nan_right]

theorem nanV_smul (s : FP) : nanV.smul s = nanV := rfl

/-- An empty scene leaves the `±∞` fold untouched; `∞ + (-∞) = nan` then
poisons every camera field (the finite viewport factors are absorbed by
`nan · x = nan`). -/
theorem fcamera_empty (settings : RenderSettings) :
    fbuild_camera ⟨1, [], []⟩ settings = ⟨nanV, nanV, nanV, nanV⟩ := rfl

/-- Every ray of the poisoned camera is all-`nan` (`len == 0.0` is false on
`nan`, so `normalized` divides `nan` by `nan`). -/
theorem fcamera_ray_nanV (u v : FP) :
    FCamera.ray ⟨nanV, nanV, nanV, nanV⟩ u v = ⟨nanV, nanV⟩ := rfl

theorem fbuild_spheres_empty : fbuild_spheres ⟨1, [], []⟩ = [] := rfl

/-- The empty BVH answers `none` before reading anything else. -/
theorem fbvh_empty_hit (ray : FRay) (tMin tMax : FP) :
    (FBvh.new (fbuild_spheres ⟨1, [], []⟩)).hit ray tMin tMax = none := rfl

/-- On the empty scene, one `trace` iteration of an all-`nan` ray misses
and returns the `nan`-poisoned background. -/
theorem ftrace_empty_nan (n : Nat) (rng : Rng) :
    ftrace (FBvh.new (fbuild_spheres ⟨1, [], []⟩)) (n + 1) ⟨nanV, nanV⟩
      ⟨.fin 1, .fin 1, .fin 1⟩ FVec3.zero rng = (nanV, rng) := rfl

theorem fsampleColor_empty (settings : RenderSettings) (x y i : Nat) :
    fsampleColor (FRenderContext.new ⟨1, [], []⟩ settings) settings x y i = nanV := by
  obtain ⟨k, hk⟩ : ∃ k, max settings.bounces 1 = k + 1 :=
    ⟨max settings.bounces 1 - 1, by omega⟩
  simp only [fsampleColor]
  rw [show (FRenderContext.new ⟨1, [], []⟩ settings).camera = ⟨nanV, nanV, nanV, nanV⟩ from rfl,
    fcamera_ray_nanV, hk,
    show (FRenderContext.new ⟨1, [], []⟩ settings).bvh = FBvh.new (fbuild_spheres ⟨1, [], []⟩)
      from rfl,
    ftrace_empty_nan k]

theorem ffoldl_sample_nan (settings : RenderSettings) (x y o : Nat) (l : List Nat) :
    l.foldl (fun c s =>
      c.add (fsampleColor (FRenderContext.new ⟨1, [], []⟩ settings) settings x y (o + s)))
      nanV = nanV := by
  induction l with
  | nil => rfl
  | cons a tl ih =>
    simp only [List.foldl_cons]
    rw [fsampleColor_empty, add_nanV_right]
    exact ih

theorem fpixelColor_empty (settings : RenderSettings) (x y o m : Nat) :
    fpixelColor (FRenderContext.new ⟨1, [], []⟩ settings) settings x y o m = nanV := by
  obtain ⟨k, hk⟩ : ∃ k, max m 1 = k + 1 := ⟨max m 1 - 1, by omega⟩
  simp only [fpixelColor]
  rw [hk, List.range_succ_eq_map, List.foldl_cons, fsampleColor_empty, add_nanV_right]
  exact ffoldl_sample_nan settings x y o _

theorem getD_replicate {α : Type} (n i : Nat) (a d : α) (h : i < n) :
    (List.replicate n a).getD i d = a := by
  rw [List.getD_eq_getElem?_getD, List.getElem?_replicate, if_pos h, Option.getD_some]

theorem map_range_eq_replicate {α : Type} (n : Nat) (f : Nat → α) (c : α)
    (h : ∀ i, i < n → f i = c) : (List.range n).map f = List.replicate n c := by
  apply List.ext_getElem?
  intro m
  rw [List.getElem?_map, List.getElem?_replicate]
  by_cases hm : m < n
  · rw [List.getElem?_range hm, if_pos hm, Option.map_some', h m hm]
  · rw [if_neg hm, List.getElem?_eq_none_iff.mpr (by simpa using not_lt.mp hm),
      Option.map_none']

theorem fupdateRow_empty (settings : RenderSettings) (o m y : Nat) (row : List FVec3) :
    fupdateRow (FRenderContext.new ⟨1, [], []⟩ settings) settings o m y row =
      List.replicate settings.width nanV := by
  simp only [fupdateRow]
  exact map_range_eq_replicate settings.width _ nanV (fun x _ => by
    rw [fpixelColor_empty, add_nanV_right])

theorem frenderRowsGo_const (R : List FVec3) (f : Nat → List FVec3 → List FVec3)
    (hf : ∀ y r, f y r = R) (k : Nat) (accum : List (List FVec3)) :
    frenderRowsGo f k accum = accum.map (fun _ => R) := by
  induction accum generalizing k with
  | nil => rfl
  | cons row rest ih =>
    simp only [frenderRowsGo, List.map_cons]
    rw [hf, ih]

theorem fto_rgb_nanV_smul (s : FP) : fto_rgb (nanV.smul s) = (0, 0, 0) := rfl

/-- Rendering the empty scene at 32×24 returns (without failure) a 32×24
image that is entirely black — every channel of every pixel is the
`as u8`-saturated image of a `nan`, not the background gradient. -/
theorem frender_empty_black (spp b seed pe t : Nat) :
    frender_scene ⟨1, [], []⟩ ⟨32, 24, spp, b, seed, pe, t⟩ =
      some ⟨32, 24, List.replicate 24 (List.replicate 32 (0, 0, 0))⟩ := by
  simp only [frender_scene]
  rw [if_neg (by simp)]
  have haccum : frender_scene_accum
      (FRenderContext.new ⟨1, [], []⟩ ⟨32, 24, spp, b, seed, pe, t⟩)
      ⟨32, 24, spp, b, seed, pe, t⟩ (fzeroAccum ⟨32, 24, spp, b, seed, pe, t⟩) 0 spp =
      List.replicate 24 (List.replicate 32 nanV) := by
    rw [frender_scene_accum,
      frenderRowsGo_const (List.replicate 32 nanV) _
        (fun y r => fupdateRow_empty ⟨32, 24, spp, b, seed, pe, t⟩ 0 spp y r) 0 _]
    rw [show fzeroAccum ⟨32, 24, spp, b, seed, pe, t⟩ =
      List.replicate 24 (List.replicate 32 FVec3.zero) from rfl, List.map_replicate]
  rw [haccum]
  simp only [fimage_from_accum]
  refine congrArg some ?_
  refine congrArg (Image.mk 32 24) ?_
  apply map_range_eq_replicate
  intro y hy
  apply map_range_eq_replicate
  intro x hx
  rw [getD_replicate 24 y (List.replicate 32 nanV) [] hy,
    getD_replicate 32 x nanV FVec3.zero hx, fto_rgb_nanV_smul]

/-- The tone-mapped background of a horizontal unit ray is (145, 166, 186),
not black. -/
theorem background_pixel_nonblack :
    to_rgb (background ⟨⟨0, 0, 0⟩, ⟨1, 0, 0⟩⟩) ≠ (0, 0, 0) := by
  have h : to_rgb (background ⟨⟨0, 0, 0⟩, ⟨1, 0, 0⟩⟩) = (145, 166, 186) := by
    norm_num [to_rgb, background, Vec3.clamp01, Vec3.smul, Vec3.add, sqrtQ_b325,
      sqrtQ_b425, sqrtQ_b535, Prod.ext_iff, Nat.floor_eq_iff]
  rw [h]
  decide

/-- C7: for the empty graph the layout is the empty scene and every BVH
query misses, and rendering at 32×24 does return a 32×24 image without
failing — but the image is entirely black, not the tone-mapped sky/ground
gradient: `build_camera`'s `±INFINITY` fold over zero nodes makes the
camera `∞ + (-∞) = nan`, every ray direction `nan`, the background blend
`nan`, and `to_rgb` saturates `nan` channels to 0, while the actual
tone-mapped background (e.g. of a horizontal unit ray) is nonzero. -/
theorem empty_graph_renders_black (seed spp b pe t : Nat) :
    layout_graph ⟨1, [], []⟩ seed = ⟨1, [], []⟩ ∧
    (∀ ray tMin tMax, (Bvh.new (build_spheres ⟨1, [], []⟩)).hit ray tMin tMax = none) ∧
    frender_scene ⟨1, [], []⟩ ⟨32, 24, spp, b, seed, pe, t⟩ =
      some ⟨32, 24, List.replicate 24 (List.replicate 32 (0, 0, 0))⟩ ∧
    to_rgb (background ⟨⟨0, 0, 0⟩, ⟨1, 0, 0⟩⟩) ≠ (0, 0, 0) := by
  refine ⟨rfl, ?_, frender_empty_black spp b seed pe t, background_pixel_nonblack⟩
  intro ray tMin tMax
  exact bvhNew_empty_hit _ rfl ray tMin tMax

end PT
